import Mathlib

/-!
# Verification of the raven document-parsing engine

This file gives a shallow embedding, in Lean 4, of the document parsing and
resolution engine of the raven repository (`src/parser/*.rs`), together with
theorems settling the frozen claims about its specification.

Modelling conventions:

* Rust `String`/`&str` values are modelled as Lean `String` at interfaces, with
  all scanning performed on the underlying `List Char`.  Byte offsets coincide
  with character offsets on the (ASCII) inputs exercised here.
* Rust `HashMap<String, FieldValue>` is modelled as an association list with
  replace-on-insert semantics; claims only observe lookups, never iteration
  order.
* Rust `f64` is modelled by `FloatVal` (an exact rational, or an infinity or
  NaN marker).  No claim observes floating-point rounding; only the success or
  failure of `str::parse::<f64>` and the provenance of values matter.
* Functions of the repository that are invoked by `src/parser/document.rs` but
  whose definitions are not part of the sources (`parse_embedded_type`,
  `parse_trait`, `extract_refs`), as well as the external crates
  (`pulldown-cmark`, `serde_yaml`, `slug`), are modelled from the spec; each
  such definition carries a doc comment starting with `Modelled from the
  spec:`.  Everything else is translated from the Rust sources.
-/

namespace Raven

/-! ## Character and string utilities (Rust `str` primitives) -/

/-- Rust `char::is_whitespace`, restricted to the ASCII whitespace characters
that occur in the documents under study. -/
def isWs (c : Char) : Bool :=
  c = ' ' || c = '\t' || c = '\n' || c = '\r'

/-- Rust `str::trim_start` on a character list. -/
def ltrim (l : List Char) : List Char := l.dropWhile isWs

/-- Rust `str::trim_end` on a character list. -/
def rtrim (l : List Char) : List Char := (l.reverse.dropWhile isWs).reverse

/-- Rust `str::trim` on a character list. -/
def trimLC (l : List Char) : List Char := rtrim (ltrim l)

/-- Rust `str::trim` returning a `String`. -/
def trimS (s : String) : String := ⟨trimLC s.data⟩

/-- Rust `str::starts_with` on character lists. -/
def startsWithLC (pre l : List Char) : Bool :=
  decide (l.take pre.length = pre)

/-- Rust `str::ends_with` on character lists. -/
def endsWithLC (suf l : List Char) : Bool :=
  decide (l.reverse.take suf.length = suf.reverse)

/-- Strip one trailing `'\r'`, as Rust `str::lines` does on `"\r\n"` endings. -/
def stripCr (l : List Char) : List Char :=
  if endsWithLC ['\r'] l then l.dropLast else l

/-- Worker for `rustLines`: split the remaining characters at `'\n'`. -/
def rustLinesAux : List Char → List Char → List (List Char)
  | [], acc => if acc.isEmpty then [] else [acc.reverse]
  | '\n' :: rest, acc => stripCr acc.reverse :: rustLinesAux rest []
  | c :: rest, acc => rustLinesAux rest (c :: acc)

/-- Rust `str::lines`: split at `'\n'`, strip a trailing `'\r'` from each
newline-terminated line, and drop the final empty segment of a
newline-terminated input. -/
def rustLines (s : String) : List String :=
  (rustLinesAux s.data []).map fun l => ⟨l⟩

/-! ## `FieldValue` (src/schema/types.rs) -/

/-- Model of an `f64` produced by `str::parse::<f64>`: an exact rational for a
finite literal, or an infinity / NaN marker.  Rounding to double precision is
not modelled; no claim observes it. -/
inductive FloatVal where
  | finite (q : ℚ)
  | inf (neg : Bool)
  | nan
deriving DecidableEq, Repr

/-- `FieldValue` from src/schema/types.rs. -/
inductive FieldValue where
  | String (s : String)
  | Number (v : FloatVal)
  | Bool (b : Bool)
  | Date (s : String)
  | Datetime (s : String)
  | Ref (s : String)
  | Array (xs : List FieldValue)
  | Null

/-- `FieldValue::as_str` from src/schema/types.rs (named without the
`FieldValue` namespace so that the `String` payload type does not collide with
the `FieldValue.String` constructor). -/
def fvAsStr : FieldValue → Option String
  | .String s => some s
  | .Date s => some s
  | .Datetime s => some s
  | .Ref s => some s
  | _ => none

/-- `matches!(v, FieldValue::Null)` from src/parser/type_decl.rs. -/
def fvIsNull : FieldValue → Bool
  | .Null => true
  | _ => false

/-- Model of `HashMap<String, FieldValue>`: an association list with
replace-on-insert semantics.  Claims only observe lookups. -/
abbrev Fields := List (String × FieldValue)

/-- `HashMap::insert`: replace the value if the key is present, else append. -/
def fieldsInsert (m : Fields) (k : String) (v : FieldValue) : Fields :=
  match m with
  | [] => [(k, v)]
  | (k₀, v₀) :: rest =>
    if k₀ = k then (k₀, v) :: rest else (k₀, v₀) :: fieldsInsert rest k v

/-- `HashMap::get`. -/
def fieldsGet (m : Fields) (k : String) : Option FieldValue :=
  match m with
  | [] => none
  | (k₀, v₀) :: rest => if k₀ = k then some v₀ else fieldsGet rest k

/-- `HashMap::is_empty`. -/
def fieldsIsEmpty (m : Fields) : Bool := m.isEmpty

/-! ## Model of `str::parse::<f64>` -/

/-- Digits of a decimal literal, most significant first, as a natural. -/
def digitsToNat (l : List Char) : ℕ :=
  l.foldl (fun acc c => 10 * acc + (c.toNat - '0'.toNat)) 0

/-- ASCII lowercase for case-insensitive comparison of `inf` / `nan`. -/
def lowerLC (l : List Char) : List Char := l.map Char.toLower

/-- Parse the exponent part `e Sign? Digit+` (after the `e`/`E`). -/
def parseExp : List Char → Option ℤ
  | [] => none
  | l =>
    let (sign, rest) :=
      match l with
      | '+' :: r => ((1 : ℤ), r)
      | '-' :: r => ((-1 : ℤ), r)
      | r => ((1 : ℤ), r)
    if rest.isEmpty then none
    else if rest.all (·.isDigit) then some (sign * digitsToNat rest) else none

/-- Parse the `Number` production of Rust's `f64::from_str` grammar:
`( Digit+ | Digit+ '.' Digit* | Digit* '.' Digit+ ) Exp?`. -/
def parseNumberPart (l : List Char) : Option ℚ :=
  let intPart := l.takeWhile Char.isDigit
  let rest₁ := l.drop intPart.length
  let fracPart : List Char :=
    match rest₁ with
    | '.' :: r => r.takeWhile Char.isDigit
    | _ => []
  let rest₂ : List Char :=
    match rest₁ with
    | '.' :: r => r.dropWhile Char.isDigit
    | _ => rest₁
  let hasDot := decide (rest₁.head? = some '.')
  if intPart.isEmpty ∧ (¬ hasDot ∨ fracPart.isEmpty) then none
  else
    let mantissa : ℚ :=
      (digitsToNat intPart : ℚ) + (digitsToNat fracPart : ℚ) / ((10 : ℚ) ^ fracPart.length)
    match rest₂ with
    | [] => some mantissa
    | 'e' :: r => (parseExp r).map fun e => mantissa * (10 : ℚ) ^ e
    | 'E' :: r => (parseExp r).map fun e => mantissa * (10 : ℚ) ^ e
    | _ => none

/-- Model of Rust `str::parse::<f64>`: `none` when parsing fails.  Grammar
(from the std documentation):
`Float ::= Sign? ( 'inf' | 'infinity' | 'nan' | Number )`, case-insensitive
for the special values. -/
def parseF64 (l : List Char) : Option FloatVal :=
  let (neg, rest) :=
    match l with
    | '+' :: r => (false, r)
    | '-' :: r => (true, r)
    | r => (false, r)
  let low := lowerLC rest
  if low = "inf".data ∨ low = "infinity".data then some (.inf neg)
  else if low = "nan".data then some .nan
  else (parseNumberPart rest).map fun q => .finite (if neg then -q else q)

/-! ## Value coercion (src/parser/type_decl.rs, `parse_value`) -/

/-- Split a character list at top-level commas: commas inside `"…"` quotes or
inside `[...]` brackets are not split points.  This is the scanning loop of
`parse_array_items` in src/parser/type_decl.rs (state: `current`,
`bracket_depth`, `in_quotes`), returning the raw comma-separated chunks. -/
def splitTopLevel (l : List Char) : List (List Char) :=
  go l [] 0 false
where
  /-- `cur` is the reversed current chunk; `depth` the bracket depth;
  `inQuotes` the quote-toggle flag. -/
  go : List Char → List Char → ℤ → Bool → List (List Char)
  | [], cur, _, _ => [cur.reverse]
  | c :: rest, cur, depth, inQuotes =>
    if c = '"' then go rest (c :: cur) depth (!inQuotes)
    else if c = '[' ∧ ¬ inQuotes then go rest (c :: cur) (depth + 1) inQuotes
    else if c = ']' ∧ ¬ inQuotes then go rest (c :: cur) (depth - 1) inQuotes
    else if c = ',' ∧ ¬ inQuotes ∧ depth = 0 then cur.reverse :: go rest [] depth inQuotes
    else go rest (c :: cur) depth inQuotes

/-- Body of `parse_value` from src/parser/type_decl.rs, with a fuel parameter
so that the nested recursion over array items is structural (and hence
kernel-computable).  `parse_value` below instantiates the fuel so that it never
runs out; the `fuel = 0` case is unreachable from `parse_value`
(`parse_value_eq`). -/
def parseValueFuel : ℕ → List Char → FieldValue
  | 0, _ => .Null
  | fuel + 1, l =>
    match trimLC l with
    | [] => .Null
    | a :: t =>
      let s := a :: t
      if startsWithLC "[[".data s ∧ ¬ startsWithLC "[[[".data s ∧ endsWithLC "]]".data s then
        .Ref ⟨(s.drop 2).dropLast.dropLast⟩
      else if startsWithLC ['['] s ∧ endsWithLC [']'] s then
        let items := (splitTopLevel ((s.drop 1).dropLast)).map (parseValueFuel fuel)
        .Array (items.filter (fun v => ¬ fvIsNull v))
      else if startsWithLC ['"'] s ∧ endsWithLC ['"'] s ∧ 2 ≤ s.length then
        .String ⟨(s.drop 1).dropLast⟩
      else if s = "true".data then .Bool true
      else if s = "false".data then .Bool false
      else
        match parseF64 s with
        | some v => .Number v
        | none =>
          if 10 ≤ s.length ∧ (s.take 4).all Char.isDigit ∧ s.contains 'T' then .Datetime ⟨s⟩
          else if s.length = 10 ∧ (s.take 4).all Char.isDigit then .Date ⟨s⟩
          else if s.length = 5 ∧ s.get? 2 = some ':' then .String ⟨s⟩
          else .String ⟨s⟩

/-- `parse_value` from src/parser/type_decl.rs, on the characters of the
fragment.  Decision order is exactly that of the source: empty, reference,
array, quoted string, boolean, number, date/datetime, bare time, fallback
string.  The recursive call for array items goes through `splitTopLevel`;
`Null` items are dropped as in `parse_array_items`. -/
def parse_value (l : List Char) : FieldValue :=
  parseValueFuel (l.length + 1) l

/-! ## Type declarations (src/parser/type_decl.rs) -/

/-- The character class `\w` of the Rust `regex` crate, restricted to ASCII:
letters, digits and underscore. -/
def isWordChar (c : Char) : Bool := c.isAlphanum || c = '_'

/-- Matcher for `TYPE_DECL_REGEX`, the anchored regular expression
`^::(\w+)\s*\(([^)]*)\)\s*$` of src/parser/type_decl.rs: returns the two
capture groups (type name, argument text) on a match.  The match is
deterministic: the name is the maximal `\w` run after `::`, the argument text
runs to the first `)`, and only whitespace may follow it. -/
def matchTypeDecl (l : List Char) : Option (List Char × List Char) :=
  match l with
  | ':' :: ':' :: rest =>
    let name := rest.takeWhile isWordChar
    if name.isEmpty then none
    else
      match (rest.drop name.length).dropWhile isWs with
      | '(' :: r₂ =>
        let args := r₂.takeWhile (fun c => c ≠ ')')
        match r₂.drop args.length with
        | ')' :: r₃ => if r₃.all isWs then some (name, args) else none
        | _ => none
      | _ => none
  | _ => none

/-- The scanning loop of `parse_arguments` from src/parser/type_decl.rs.
State: reversed current key, reversed current value, `in_key`, `in_quotes`,
`bracket_depth`, accumulated fields.  Mirrors the Rust `match` arm per arm,
including the quirk that `"`/`[`/`]` are always pushed onto the *value*
buffer, even while reading a key. -/
def parseArgsGo : List Char → List Char → List Char → Bool → Bool → ℤ → Fields → Fields
  | [], curKey, curVal, _, _, _, fields =>
    let key := trimLC curKey.reverse
    if key.isEmpty then fields
    else fieldsInsert fields ⟨key⟩ (parse_value (trimLC curVal.reverse))
  | c :: rest, curKey, curVal, inKey, inQuotes, depth, fields =>
    if c = '"' ∧ depth = 0 then
      parseArgsGo rest curKey (c :: curVal) inKey (!inQuotes) depth fields
    else if c = '[' ∧ ¬ inQuotes then
      parseArgsGo rest curKey (c :: curVal) inKey inQuotes (depth + 1) fields
    else if c = ']' ∧ ¬ inQuotes then
      parseArgsGo rest curKey (c :: curVal) inKey inQuotes (depth - 1) fields
    else if c = '=' ∧ ¬ inQuotes ∧ depth = 0 ∧ inKey then
      parseArgsGo rest curKey curVal false inQuotes depth fields
    else if c = ',' ∧ ¬ inQuotes ∧ depth = 0 then
      let key := trimLC curKey.reverse
      let fields₂ :=
        if key.isEmpty then fields
        else fieldsInsert fields ⟨key⟩ (parse_value (trimLC curVal.reverse))
      parseArgsGo rest [] [] true inQuotes depth fields₂
    else if inKey then parseArgsGo rest (c :: curKey) curVal inKey inQuotes depth fields
    else parseArgsGo rest curKey (c :: curVal) inKey inQuotes depth fields

/-- `parse_arguments` from src/parser/type_decl.rs.  (Its Rust signature is
`Result`, but no path through it can fail: `parse_value` is total, so the
model is a total function.) -/
def parse_arguments (args : List Char) : Fields :=
  if (trimLC args).isEmpty then []
  else parseArgsGo args [] [] true false 0 []

/-- `TypeDeclaration` from src/parser/type_decl.rs. -/
structure TypeDeclaration where
  type_name : String
  id : Option String
  fields : Fields
  line : ℕ

/-- `parse_type_declaration` from src/parser/type_decl.rs: `ok none` when the
trimmed line does not start with `::`; an error (the `bail!`) when it starts
with `::` but fails `TYPE_DECL_REGEX`. -/
def parse_type_declaration (line : String) (lineNumber : ℕ) :
    Except String (Option TypeDeclaration) :=
  let trimmed := trimLC line.data
  if ¬ startsWithLC "::".data trimmed then .ok none
  else
    match matchTypeDecl trimmed with
    | none => .error ("Invalid type declaration syntax: " ++ ⟨trimmed⟩)
    | some (name, args) =>
      let fields := parse_arguments args
      let id := (fieldsGet fields "id").bind fvAsStr
      .ok (some { type_name := ⟨name⟩, id := id, fields := fields, line := lineNumber })

/-! ## Frontmatter helpers (src/parser/frontmatter.rs) -/

/-- `is_date_string` from src/parser/frontmatter.rs: exactly the
`YYYY-MM-DD` shape (length 10, three `-`-separated runs of lengths 4, 2, 2,
all ASCII digits). -/
def is_date_string (l : List Char) : Bool :=
  if l.length ≠ 10 then false
  else
    let parts := l.splitOn '-'
    if parts.length ≠ 3 then false
    else
      (parts.get? 0 |>.map List.length) = some 4 ∧
      (parts.get? 1 |>.map List.length) = some 2 ∧
      (parts.get? 2 |>.map List.length) = some 2 ∧
      parts.all (fun p => p.all Char.isDigit)

/-- `is_datetime_string` from src/parser/frontmatter.rs: contains `T` and has
length at least 16. -/
def is_datetime_string (l : List Char) : Bool :=
  l.contains 'T' ∧ 16 ≤ l.length

/-! ## Frontmatter (src/parser/frontmatter.rs) -/

/-- Modelled from the spec: a scalar of the `serde_yaml` value space, for the
frontmatter subset (§ non-goals: "only the subset needed for the frontmatter
block (mappings, scalars, sequences)").  `serde_yaml` itself is an external
crate, absent from src/. -/
inductive YamlScalar where
  | str (s : String)
  | num (v : FloatVal)
  | boolean (b : Bool)
  | null

/-- Modelled from the spec: a frontmatter mapping value — a scalar or a
sequence of scalars. -/
inductive YamlVal where
  | scalar (s : YamlScalar)
  | seq (xs : List YamlScalar)

/-- Modelled from the spec: plain-scalar typing of the YAML subset — empty or
`null`/`~` is null, `true`/`false` are booleans, numeric literals are numbers,
quoted text loses its quotes, anything else is a string. -/
def yamlScalarOfText (raw : List Char) : YamlScalar :=
  let t := trimLC raw
  if t.isEmpty then .null
  else if t = "null".data ∨ t = "~".data then .null
  else if t = "true".data then .boolean true
  else if t = "false".data then .boolean false
  else if startsWithLC ['"'] t ∧ endsWithLC ['"'] t ∧ 2 ≤ t.length then
    .str ⟨(t.drop 1).dropLast⟩
  else if startsWithLC ['\''] t ∧ endsWithLC ['\''] t ∧ 2 ≤ t.length then
    .str ⟨(t.drop 1).dropLast⟩
  else
    match parseF64 t with
    | some v => .num v
    | none => .str ⟨t⟩

/-- Modelled from the spec: decode one `key: value` line of the frontmatter
mapping.  `none` marks a skippable line (blank or `#` comment); an `error` is
invalid mapping syntax (no `:` separator, or an empty key), the hard-failure
case of §7(b). -/
def decodeYamlLine (l : List Char) : Except String (Option (String × YamlVal)) :=
  let t := trimLC l
  if t.isEmpty ∨ startsWithLC ['#'] t then .ok none
  else
    let key := t.takeWhile (fun c => c ≠ ':')
    let rest := t.drop key.length
    match rest with
    | ':' :: valText =>
      let keyT := trimLC key
      if keyT.isEmpty then .error "Failed to parse frontmatter YAML"
      else
        let v := trimLC valText
        if startsWithLC ['['] v ∧ endsWithLC [']'] v then
          .ok (some (⟨keyT⟩, .seq ((splitTopLevel ((v.drop 1).dropLast)).map yamlScalarOfText)))
        else .ok (some (⟨keyT⟩, .scalar (yamlScalarOfText v)))
    | _ => .error "Failed to parse frontmatter YAML"

/-- Modelled from the spec: decode the lines between the frontmatter
delimiters as a mapping, in order, propagating invalid-syntax errors. -/
def decodeYamlMapping : List String → Except String (List (String × YamlVal))
  | [] => .ok []
  | l :: rest => do
    let entry ← decodeYamlLine l.data
    let m ← decodeYamlMapping rest
    match entry with
    | some kv => .ok (kv :: m)
    | none => .ok m

/-- `yaml_to_field_value` from src/parser/frontmatter.rs.  Note the reference
check here, unlike `parse_value`, has no `[[[` exclusion. -/
def yaml_to_field_value_scalar (v : YamlScalar) : FieldValue :=
  match v with
  | .str s =>
    if startsWithLC "[[".data s.data ∧ endsWithLC "]]".data s.data then
      .Ref ⟨(s.data.drop 2).dropLast.dropLast⟩
    else if is_date_string s.data then .Date s
    else if is_datetime_string s.data then .Datetime s
    else .String s
  | .num n => .Number n
  | .boolean b => .Bool b
  | .null => .Null

/-- `yaml_to_field_value` on a mapping value (sequences become arrays). -/
def yaml_to_field_value (v : YamlVal) : FieldValue :=
  match v with
  | .scalar s => yaml_to_field_value_scalar s
  | .seq xs => .Array (xs.map yaml_to_field_value_scalar)

/-- `parse_tags_value` from src/parser/frontmatter.rs: a sequence keeps its
string entries, a single string is a one-element tag list, anything else is
empty. -/
def parse_tags_value (v : YamlVal) : List String :=
  match v with
  | .seq xs => xs.filterMap (fun s => match s with | .str t => some t | _ => none)
  | .scalar (.str s) => [s]
  | _ => []

/-- `Frontmatter` from src/parser/frontmatter.rs. -/
structure Frontmatter where
  object_type : Option String
  fields : Fields
  tags : List String
  end_line : ℕ

/-- The mapping loop of `parse_frontmatter`: fold the decoded entries into a
`Frontmatter`, treating the special keys `type` and `tags` as in the source. -/
def foldFrontmatter (entries : List (String × YamlVal)) (fm : Frontmatter) : Frontmatter :=
  match entries with
  | [] => fm
  | (k, v) :: rest =>
    if k = "type" then
      match v with
      | .scalar (.str t) => foldFrontmatter rest { fm with object_type := some t }
      | _ => foldFrontmatter rest fm
    else if k = "tags" then
      foldFrontmatter rest { fm with tags := parse_tags_value v }
    else
      foldFrontmatter rest { fm with fields := fieldsInsert fm.fields k (yaml_to_field_value v) }

/-- `parse_frontmatter` from src/parser/frontmatter.rs.  `ok none` models the
`Frontmatter::default()` returns (no frontmatter present — document.rs treats
the result as an `Option`); note both delimiter tests use `trim`.  A YAML
decoding failure is the hard error. -/
def parse_frontmatter (content : String) : Except String (Option Frontmatter) :=
  let lines := rustLines content
  if lines.isEmpty ∨ trimS (lines.headD "") ≠ "---" then .ok none
  else
    match (lines.drop 1).findIdx? (fun l => trimS l = "---") with
    | none => .ok none
    | some i =>
      let endIdx := i + 1
      let yamlLines := (lines.drop 1).take i
      match decodeYamlMapping yamlLines with
      | .error e => .error e
      | .ok entries =>
        .ok (some (foldFrontmatter entries
          { object_type := none, fields := [], tags := [], end_line := endIdx + 1 }))

/-! ## Slugification (external crate `slug`) -/

/-- Modelled from the spec: `slug::slugify`, the "filesystem/URL-safe
slugification" of §4.5 — ASCII alphanumerics are lowercased, every other
character becomes a separator, separator runs collapse to a single `-`, and
no leading or trailing `-` is produced. -/
def slugifyGo : List Char → Bool → List Char → List Char
  | [], _, acc => acc.reverse
  | c :: rest, pending, acc =>
    if c.isAlphanum then
      slugifyGo rest false (c.toLower :: (if pending ∧ ¬ acc.isEmpty then '-' :: acc else acc))
    else slugifyGo rest true acc

/-- Modelled from the spec: `slug::slugify` on a `String`. -/
def slugify (s : String) : String := ⟨slugifyGo s.data false []⟩

/-! ## Markdown scanning (src/parser/markdown.rs over a modelled event stream) -/

/-- Modelled from the spec: the `pulldown-cmark` event alphabet restricted to
the events src/parser/markdown.rs inspects — heading start (with level and
originating line), heading end, text runs, inline code spans, and code-block
delimiters. -/
inductive MdEvent where
  | startHeading (level : ℕ) (line : ℕ)
  | endHeading
  | text (s : String)
  | code (s : String)
  | startCodeBlock
  | endCodeBlock

/-- A parsed heading (src/parser/markdown.rs `Heading`). -/
structure Heading where
  level : ℕ
  text : String
  line : ℕ

/-- Modelled from the spec: split a line into alternating text runs and
inline code spans, pairing single backticks within the line; an unpaired
backtick is literal text.  Fuel keeps the recursion structural; `segmentLine`
supplies enough fuel that it never runs out. -/
def segmentLineFuel : ℕ → List Char → List MdEvent
  | 0, _ => []
  | fuel + 1, l =>
    let txt := l.takeWhile (fun c => c ≠ '`')
    let rest := l.drop txt.length
    let txtEvents := if txt.isEmpty then [] else [MdEvent.text ⟨txt⟩]
    match rest with
    | '`' :: after =>
      let codeTxt := after.takeWhile (fun c => c ≠ '`')
      match after.drop codeTxt.length with
      | '`' :: after₂ => txtEvents ++ [MdEvent.code ⟨codeTxt⟩] ++ segmentLineFuel fuel after₂
      | _ => txtEvents ++ [MdEvent.text "`"] ++ segmentLineFuel fuel after
    | _ => txtEvents

/-- Modelled from the spec: text/code segmentation of one line. -/
def segmentLine (l : List Char) : List MdEvent := segmentLineFuel (l.length + 1) l

/-- Modelled from the spec: is this line a code-fence delimiter? -/
def isFenceLine (l : List Char) : Bool := startsWithLC "```".data (ltrim l)

/-- Modelled from the spec: recognize an ATX heading — at most three leading
spaces, one to six `#`, then a space, tab or end of line; the inline content
is the trimmed remainder. -/
def atxHeading (l : List Char) : Option (ℕ × List Char) :=
  let ind := l.takeWhile (fun c => c = ' ')
  if 3 < ind.length then none
  else
    let afterInd := l.drop ind.length
    let hashes := afterInd.takeWhile (fun c => c = '#')
    if hashes.length = 0 ∨ 6 < hashes.length then none
    else
      match afterInd.drop hashes.length with
      | [] => some (hashes.length, [])
      | c :: rest => if c = ' ' ∨ c = '\t' then some (hashes.length, trimLC rest) else none

/-- Modelled from the spec: events of one source line, given the code-fence
state; returns the new fence state. -/
def lineEvents (fence : Bool) (ln : ℕ) (line : String) : Bool × List MdEvent :=
  if fence then
    if isFenceLine line.data then (false, [.endCodeBlock])
    else (true, [.text line])
  else if isFenceLine line.data then (true, [.startCodeBlock])
  else
    match atxHeading line.data with
    | some (lvl, txt) => (false, [.startHeading lvl ln] ++ segmentLine txt ++ [.endHeading])
    | none => (false, segmentLine line.data)

/-- Modelled from the spec: the event stream of a document body — the
`pulldown-cmark` tokenizer restricted to the events of §4.4, produced line by
line with the body's starting line offset.  An unterminated code block is
closed at end of input. -/
def mdEventsGo : List String → Bool → ℕ → List MdEvent
  | [], fence, _ => if fence then [.endCodeBlock] else []
  | l :: rest, fence, ln =>
    let (f₂, evs) := lineEvents fence ln l
    evs ++ mdEventsGo rest f₂ (ln + 1)

/-- Modelled from the spec: the event stream of a document body. -/
def mdEvents (content : String) (startLine : ℕ) : List MdEvent :=
  mdEventsGo (rustLines content) false startLine

/-- The event fold of `extract_headings` from src/parser/markdown.rs: track
the current heading (level, line) and accumulated text; on heading end, emit
the heading unless its accumulated text is whitespace-only.  Inline `code`
events are not accumulated (only `Event::Text` is matched in the source). -/
def extractHeadingsGo : List MdEvent → Option (ℕ × ℕ) → List Char → List Heading
  | [], _, _ => []
  | e :: rest, cur, txt =>
    match e with
    | .startHeading lvl ln => extractHeadingsGo rest (some (lvl, ln)) []
    | .text s =>
      if cur.isSome then extractHeadingsGo rest cur (txt ++ s.data)
      else extractHeadingsGo rest cur txt
    | .endHeading =>
      match cur with
      | some (lvl, ln) =>
        if (trimLC txt).isEmpty then extractHeadingsGo rest none []
        else { level := lvl, text := ⟨trimLC txt⟩, line := ln } :: extractHeadingsGo rest none []
      | none => extractHeadingsGo rest none []
    | _ => extractHeadingsGo rest cur txt

/-- `extract_headings` from src/parser/markdown.rs. -/
def extract_headings (content : String) (startLine : ℕ) : List Heading :=
  extractHeadingsGo (mdEvents content startLine) none []

/-! ## Inline tags (src/parser/markdown.rs) -/

/-- Is `c` a tag-continuation character (`is_alphanumeric || '_' || '-'`)? -/
def isTagChar (c : Char) : Bool := c.isAlphanum || c = '_' || c = '-'

/-- The scanning loop of `extract_tags_from_text` from src/parser/markdown.rs.
The source consumes a recognized tag run inside the iteration and leaves
`prev_char = '#'`; scanning character by character while tracking the previous
character yields the same tag list, because no character of a tag run can
begin a tag (`#` is not a tag character) and the previous-character test only
matters at a `#`. -/
def extractTagsFromTextGo : List Char → Char → List String
  | [], _ => []
  | c :: rest, prev =>
    (if c = '#' ∧ (isWs prev ∨ prev = '(' ∨ prev = '[') then
      let tag := rest.takeWhile isTagChar
      if ¬ tag.isEmpty ∧ ¬ (tag.headD ' ').isDigit then [(⟨tag⟩ : String)] else []
    else []) ++ extractTagsFromTextGo rest c

/-- `extract_tags_from_text` from src/parser/markdown.rs (initial
`prev_char = ' '`). -/
def extract_tags_from_text (l : List Char) : List String :=
  extractTagsFromTextGo l ' '

/-- Byte-lexicographic order on strings as a computable Boolean (Rust `Ord`
for `String`; scalar-value order coincides with UTF-8 byte order). -/
def lcLe : List Char → List Char → Bool
  | [], _ => true
  | _ :: _, [] => false
  | a :: as, b :: bs => if a = b then lcLe as bs else decide (a < b)

/-- Insertion into a sorted list (for modelling `Vec::sort`). -/
def insertSortedStr (x : String) : List String → List String
  | [] => [x]
  | y :: r => if lcLe x.data y.data then x :: y :: r else y :: insertSortedStr x r

/-- `Vec::sort` on strings: produces the sorted arrangement, which is unique
because ties are equal strings (`lcLe` is antisymmetric), so stability is
irrelevant and insertion sort models Rust\'s stable sort exactly. -/
def sortStrs (l : List String) : List String := l.foldr insertSortedStr []

/-- `Vec::dedup`: remove consecutive duplicates. -/
def dedupAdj : List String → List String
  | [] => []
  | [a] => [a]
  | a :: b :: r => if a = b then dedupAdj (b :: r) else a :: dedupAdj (b :: r)

/-- The event fold of `extract_inline_tags` from src/parser/markdown.rs:
`in_code` tracks code blocks, inline `code` events are skipped, tags are
collected from text events outside code. -/
def extractInlineTagsGo : List MdEvent → Bool → List String
  | [], _ => []
  | e :: rest, inCode =>
    match e with
    | .startCodeBlock => extractInlineTagsGo rest true
    | .endCodeBlock => extractInlineTagsGo rest false
    | .code _ => extractInlineTagsGo rest inCode
    | .text s =>
      (if inCode then [] else extract_tags_from_text s.data) ++ extractInlineTagsGo rest inCode
    | _ => extractInlineTagsGo rest inCode

/-- `extract_inline_tags` from src/parser/markdown.rs: collect, then
`sort()` and `dedup()`. -/
def extract_inline_tags (content : String) : List String :=
  dedupAdj (sortStrs (extractInlineTagsGo (mdEvents content 1) false))

/-! ## Trait annotations (src/parser/traits.rs; `parse_trait` modelled) -/

/-- A single trait match as consumed by src/parser/document.rs: name, fields,
and the trimmed content after the match. -/
structure TraitAnn where
  name : String
  fields : Fields
  content : String

/-- Modelled from the spec: try to match `TRAIT_REGEX`
(`(?:^|[\s\-\*])@(\w+)(?:\s*\(([^)]*)\))?` of src/parser/traits.rs) at the
head of `l`, the `@` being allowed because `atStart` holds or the previous
character `prev` is whitespace, `-` or `*`.  Returns the name, the optional
raw argument text, and the remainder of the line after the match end. -/
def traitMatchHere (l : List Char) (atStart : Bool) (prev : Char) :
    Option (String × Option (List Char) × List Char) :=
  match l with
  | '@' :: rest =>
    if atStart ∨ isWs prev ∨ prev = '-' ∨ prev = '*' then
      let name := rest.takeWhile isWordChar
      if name.isEmpty then none
      else
        let afterName := rest.drop name.length
        let ws₂ := afterName.takeWhile isWs
        match afterName.drop ws₂.length with
        | '(' :: r₂ =>
          let args := r₂.takeWhile (fun c => c ≠ ')')
          match r₂.drop args.length with
          | ')' :: r₃ => some (⟨name⟩, some args, r₃)
          | _ => some (⟨name⟩, none, afterName)
        | _ => some (⟨name⟩, none, afterName)
    else none
  | _ => none

/-- Modelled from the spec: scan for the first trait-annotation match on a
line (src/parser/document.rs consumes one trait per line via the missing
`parse_trait`). -/
def findFirstTrait : List Char → Bool → Char → Option (String × Option (List Char) × List Char)
  | [], _, _ => none
  | c :: rest, atStart, prev =>
    match traitMatchHere (c :: rest) atStart prev with
    | some m => some m
    | none => findFirstTrait rest false c

/-- `parse_trait_arguments` from src/parser/traits.rs routes the raw argument
text through `parse_type_declaration ("::dummy(" ++ args ++ ")")`; since the
argument text contains no `)`, that always reduces to `parse_arguments`. -/
def parse_trait_arguments (args : List Char) : Fields := parse_arguments args

/-- Modelled from the spec: `parse_trait`, the per-line trait recognizer that
src/parser/document.rs imports but whose definition is missing from src/ —
§4.6: the first `@name` token preceded by start-of-line, whitespace or a list
marker; content is the trimmed remainder of the line after the annotation; an
optional parenthesized argument list is parsed by the §4.2 argument parser. -/
def parse_trait (line : String) (_lineNumber : ℕ) : Option TraitAnn :=
  match findFirstTrait line.data true ' ' with
  | none => none
  | some (name, args, remainder) =>
    some { name := name
           fields := parse_trait_arguments (args.getD [])
           content := ⟨trimLC remainder⟩ }

/-! ## References (src/parser/refs.rs; `extract_refs` modelled) -/

/-- A wikilink reference as consumed by src/parser/document.rs. -/
structure RefItem where
  target_raw : String
  display_text : Option String
  line : ℕ
  startPos : ℕ
  endPos : ℕ

/-- Modelled from the spec: try to match `REF_REGEX`
(`\[\[([^\]|]+)(?:\|([^\]]+))?\]\]` of src/parser/refs.rs) at the head of
`l`; returns target, optional display text, the match length, and the
remainder after the match. -/
def refMatchHere (l : List Char) : Option (String × Option String × ℕ × List Char) :=
  match l with
  | '[' :: '[' :: rest =>
    let target := rest.takeWhile (fun c => c ≠ ']' ∧ c ≠ '|')
    if target.isEmpty then none
    else
      match rest.drop target.length with
      | ']' :: ']' :: r₂ => some (⟨target⟩, none, target.length + 4, r₂)
      | '|' :: r₂ =>
        let display := r₂.takeWhile (fun c => c ≠ ']')
        if display.isEmpty then none
        else
          match r₂.drop display.length with
          | ']' :: ']' :: r₃ =>
            some (⟨target⟩, some ⟨display⟩, target.length + display.length + 5, r₃)
          | _ => none
      | _ => none
  | _ => none

/-- Modelled from the spec: all non-overlapping leftmost `REF_REGEX` matches
on one line, with their character offsets (`captures_iter`).  Fuel keeps the
recursion structural; the wrapper supplies enough. -/
def scanRefsFuel : ℕ → List Char → ℕ → List (String × Option String × ℕ × ℕ)
  | 0, _, _ => []
  | _ + 1, [], _ => []
  | fuel + 1, c :: rest, pos =>
    match refMatchHere (c :: rest) with
    | some (target, display, len, r₂) =>
      (target, display, pos, pos + len) :: scanRefsFuel fuel r₂ (pos + len)
    | none => scanRefsFuel fuel rest (pos + 1)

/-- Modelled from the spec: `extract_refs`, the per-body reference extractor
that src/parser/document.rs imports but whose definition is missing from
src/; it mirrors the in-src `extract_references` of src/parser/refs.rs:
line-by-line `captures_iter` of `REF_REGEX` with line numbers offset by
`start_line`. -/
def extract_refs (content : String) (startLine : ℕ) : List RefItem :=
  ((rustLines content).enum.map fun (idx, l) =>
    (scanRefsFuel (l.data.length + 1) l.data 0).map fun (t, d, s, e) =>
      { target_raw := t, display_text := d, line := startLine + idx
        startPos := s, endPos := e }).flatten

/-! ## Document assembly (src/parser/document.rs) -/

/-- `ParsedObject` from src/parser/document.rs. -/
structure ParsedObject where
  id : String
  object_type : String
  fields : Fields
  tags : List String
  heading : Option String
  heading_level : Option ℕ
  parent_id : Option String
  line_start : ℕ
  line_end : Option ℕ

/-- `ParsedTrait` from src/parser/document.rs. -/
structure ParsedTrait where
  trait_type : String
  content : String
  fields : Fields
  parent_object_id : String
  line : ℕ

/-- `ParsedRef` from src/parser/document.rs. -/
structure ParsedRef where
  source_id : String
  target_raw : String
  display_text : Option String
  line : ℕ
  startPos : ℕ
  endPos : ℕ

/-- `ParsedDocument` from src/parser/document.rs. -/
structure ParsedDocument where
  file_path : String
  objects : List ParsedObject
  traits : List ParsedTrait
  refs : List ParsedRef

/-- A hard parse failure, tagged with the offending file (§7: "all hard
failures bubble to the per-file caller as a single tagged error carrying the
offending path"). -/
structure ParseError where
  path : String
  msg : String

/-- The embedded object consumed by the type-declaration branch of
src/parser/document.rs (`embedded.id`, `embedded.type_name`,
`embedded.fields`, `embedded.tags`). -/
structure EmbeddedType where
  type_name : String
  id : String
  fields : Fields
  tags : List String
  line : ℕ

/-- Modelled from the spec: `parse_embedded_type`, imported by
src/parser/document.rs from src/parser/type_decl.rs but missing from src/.
It recognizes the §6 type-declaration shape via the in-src
`parse_type_declaration`, propagating its hard failure (§7(a)); the declared
id is the `id` argument (§4.5: "id = fileId#declaredId"), and no tags are
attached to a typed object. -/
def parse_embedded_type (line : String) (lineNumber : ℕ) :
    Except String (Option EmbeddedType) :=
  (parse_type_declaration line lineNumber).map fun od =>
    od.map fun d =>
      { type_name := d.type_name, id := d.id.getD "", fields := d.fields
        tags := [], line := lineNumber }

/-- The type-declaration scan of src/parser/document.rs (lines 181–186):
every body line is tested, building the line → declaration lookup;
a hard failure on any line aborts the parse. -/
def buildTypeDeclMap : List String → ℕ → Except String (List (ℕ × EmbeddedType))
  | [], _ => .ok []
  | l :: rest, n => do
    let e ← parse_embedded_type l n
    let m ← buildTypeDeclMap rest (n + 1)
    match e with
    | some emb => .ok ((n, emb) :: m)
    | none => .ok m

/-- Lookup in the line → declaration map (`type_decl_lines.get`). -/
def lookupLine (m : List (ℕ × EmbeddedType)) (n : ℕ) : Option EmbeddedType :=
  match m with
  | [] => none
  | (k, v) :: rest => if k = n then some v else lookupLine rest n

/-- The `used_ids.entry(slug).or_insert(0); *count += 1` counter of
src/parser/document.rs: bump the per-slug counter, returning the new count
and the updated map. -/
def bumpCount : List (String × ℕ) → String → ℕ × List (String × ℕ)
  | [], k => (1, [(k, 1)])
  | (k₀, c) :: r, k =>
    if k₀ = k then (c + 1, (k₀, c + 1) :: r)
    else ((bumpCount r k).1, (k₀, c) :: (bumpCount r k).2)

/-- The candidate section slug of src/parser/document.rs (lines 224–229):
slugified heading text, falling back to `section-<line>` when slugification
is empty. -/
def sectionBaseSlug (h : Heading) : String :=
  let base := slugify h.text
  if base.data.isEmpty then "section-" ++ Nat.repr h.line else base

/-- The stack pop of src/parser/document.rs (lines 199–202): pop while the
stack has more than one entry and its top level is ≥ the current heading's
level.  The stack is held top-first; the bottom entry is the root. -/
def popStack : List (String × ℕ) → ℕ → List (String × ℕ)
  | [], _ => []
  | [x], _ => [x]
  | x :: y :: r, lvl => if lvl ≤ x.2 then popStack (y :: r) lvl else x :: y :: r

/-- The heading loop of src/parser/document.rs (lines 195–263): one object
per heading — a typed object when the next line holds a type declaration,
else a `section` object with a collision-disambiguated slug; the parent is
the stack top after popping. -/
def buildObjectsGo (fileId : String) (declMap : List (ℕ × EmbeddedType)) :
    List Heading → List (String × ℕ) → List (String × ℕ) → List ParsedObject
  | [], _, _ => []
  | h :: rest, stack, usedIds =>
    let stack₁ := popStack stack h.level
    let currentParent := ((stack₁.headD (fileId, 0))).1
    match lookupLine declMap (h.line + 1) with
    | some emb =>
      let embeddedId := fileId ++ "#" ++ emb.id
      { id := embeddedId, object_type := emb.type_name, fields := emb.fields
        tags := emb.tags, heading := some h.text, heading_level := some h.level
        parent_id := some currentParent, line_start := h.line, line_end := none } ::
        buildObjectsGo fileId declMap rest ((embeddedId, h.level) :: stack₁) usedIds
    | none =>
      let slug := sectionBaseSlug h
      let (count, used₂) := bumpCount usedIds slug
      let uniqueSlug := if count = 1 then slug else slug ++ "-" ++ Nat.repr count
      let sectionId := fileId ++ "#" ++ uniqueSlug
      let fields := fieldsInsert (fieldsInsert [] "title" (.String h.text))
        "level" (.Number (.finite h.level))
      { id := sectionId, object_type := "section", fields := fields, tags := []
        heading := some h.text, heading_level := some h.level
        parent_id := some currentParent, line_start := h.line, line_end := none } ::
        buildObjectsGo fileId declMap rest ((sectionId, h.level) :: stack₁) used₂

/-- `find_parent_for_line` from src/parser/document.rs: among objects whose
start is ≤ the line, take the one with the greatest start (`max_by_key`
returns the *last* maximal element); fall back to the first object's id. -/
def find_parent_for_line (objects : List ParsedObject) (line : ℕ) : String :=
  let cands := objects.filter (fun o => o.line_start ≤ line)
  let best := cands.foldl (fun acc o =>
    match acc with
    | none => some o
    | some a => if a.line_start ≤ o.line_start then some o else some a) none
  match best with
  | some o => o.id
  | none => ((objects.head?).map (·.id)).getD ""

/-- The index comparison of `compute_line_ends`: Rust's stable
`sort_by_key(line_start)` is the unique arrangement sorted by the
antisymmetric total order (start, original index) lexicographic. -/
def idxLe (starts : List ℕ) (i j : ℕ) : Bool :=
  decide (starts.getD i 0 < starts.getD j 0 ∨ (starts.getD i 0 = starts.getD j 0 ∧ i ≤ j))

/-- Insertion into an index list sorted by `le`. -/
def insertIdx (le : ℕ → ℕ → Bool) (x : ℕ) : List ℕ → List ℕ
  | [] => [x]
  | y :: r => if le x y then x :: y :: r else y :: insertIdx le x r

/-- Insertion sort of an index list by `le`. -/
def sortIdxBy (le : ℕ → ℕ → Bool) (l : List ℕ) : List ℕ := l.foldr (insertIdx le) []

/-- The end line `compute_line_ends` assigns to the object at original index
`k`: the start of its successor in the sorted index order, minus one; `none`
for the last object in sorted order. -/
def computeEndAt (starts : List ℕ) (k : ℕ) : Option ℕ :=
  let idx := sortIdxBy (idxLe starts) (List.range starts.length)
  match idx.findIdx? (fun j => j = k) with
  | none => none
  | some p =>
    match idx.get? (p + 1) with
    | none => none
    | some j => (starts.get? j).map (· - 1)

/-- `compute_line_ends` from src/parser/document.rs: sort the object indices
by start line (stably), then give each object the next sorted object's start
minus one as its end line, the last having none. -/
def compute_line_ends (objs : List ParsedObject) : List ParsedObject :=
  objs.enum.map fun (k, o) =>
    { o with line_end := computeEndAt (objs.map (·.line_start)) k }

/-- `relative_path.strip_suffix(".md").unwrap_or(relative_path)`. -/
def stripDotMd (s : String) : String :=
  if endsWithLC ".md".data s.data then ⟨s.data.dropLast.dropLast.dropLast⟩ else s

/-- Join with `"\n"` (the `join` of the body reconstruction). -/
def joinNl (ls : List String) : String :=
  ⟨(List.intersperse "\n".data (ls.map String.data)).flatten⟩

/-- The body of the document after frontmatter stripping
(src/parser/document.rs lines 125–129). -/
def documentBody (content : String) (fm : Option Frontmatter) : String :=
  match fm with
  | some f => joinNl ((rustLines content).drop f.end_line)
  | none => content

/-- The first line of the document body, 1-indexed
(src/parser/document.rs line 124). -/
def contentStartLine (fm : Option Frontmatter) : ℕ :=
  match fm with
  | some f => f.end_line + 1
  | none => 1

/-- The root-object tag list (src/parser/document.rs lines 142–153):
frontmatter tags, then each inline tag not already present. -/
def fileTagsOf (fmTags : List String) (inlineTags : List String) : List String :=
  inlineTags.foldl (fun acc t => if acc.contains t then acc else acc ++ [t]) fmTags

/-- The root-object tag list of a document (src/parser/document.rs lines
142–153): frontmatter tags, then the body's inline tags not already
present. -/
def rootTagsOf (fm : Option Frontmatter) (body : String) : List String :=
  fileTagsOf ((fm.map (·.tags)).getD []) (extract_inline_tags body)

/-- The file-level (root) object (src/parser/document.rs lines 131–172). -/
def rootObjectOf (fileId : String) (fm : Option Frontmatter) (body : String) :
    ParsedObject :=
  let fmFields := (fm.map (·.fields)).getD []
  let fileType := (fm.bind (·.object_type)).getD "page"
  let fileTags := rootTagsOf fm body
  { id := fileId
    object_type := fileType
    fields :=
      if fileTags.isEmpty then fmFields
      else fieldsInsert fmFields "tags" (.Array (fileTags.map .String))
    tags := fileTags, heading := none, heading_level := none
    parent_id := none, line_start := 1, line_end := none }

/-- The object list before end-line computation: root object first, then one
object per heading (src/parser/document.rs lines 162–263). -/
def objectsOf (fileId : String) (fm : Option Frontmatter) (body : String)
    (startLn : ℕ) (declMap : List (ℕ × EmbeddedType)) : List ParsedObject :=
  rootObjectOf fileId fm body ::
    buildObjectsGo fileId declMap (extract_headings body startLn) [(fileId, 0)] []

/-- The trait pass (src/parser/document.rs lines 265–281). -/
def traitsOf (objects : List ParsedObject) (bodyLines : List String)
    (startLn : ℕ) : List ParsedTrait :=
  bodyLines.enum.filterMap fun (idx, l) =>
    match parse_trait l (startLn + idx) with
    | none => none
    | some t =>
      some { trait_type := t.name, content := t.content, fields := t.fields
             parent_object_id := find_parent_for_line objects (startLn + idx)
             line := startLn + idx }

/-- The reference pass (src/parser/document.rs lines 283–297). -/
def refsOf (objects : List ParsedObject) (body : String) (startLn : ℕ) :
    List ParsedRef :=
  (extract_refs body startLn).map fun r =>
    { source_id := find_parent_for_line objects r.line
      target_raw := r.target_raw, display_text := r.display_text
      line := r.line, startPos := r.startPos, endPos := r.endPos }

/-- `parse_document` from src/parser/document.rs.  The filesystem plumbing
(`strip_prefix(vault_path)`, lossy conversion) is outside the engine; the
model takes the relative path directly. -/
def parse_document (content : String) (relativePath : String) :
    Except ParseError ParsedDocument :=
  let fileId := stripDotMd relativePath
  match parse_frontmatter content with
  | .error _ =>
    .error { path := relativePath
             msg := "Failed to parse frontmatter in " ++ relativePath }
  | .ok frontmatter =>
    let startLn := contentStartLine frontmatter
    let body := documentBody content frontmatter
    match buildTypeDeclMap (rustLines body) startLn with
    | .error _ =>
      .error { path := relativePath
               msg := "Invalid type declaration in " ++ relativePath }
    | .ok declMap =>
      let objects := objectsOf fileId frontmatter body startLn declMap
      .ok { file_path := relativePath
            objects := compute_line_ends objects
            traits := traitsOf objects (rustLines body) startLn
            refs := refsOf objects body startLn }

/-- The first-occurrence count that `usedCountOf`/`bumpCount` maintain: the
counter stored for slug `s` (0 when absent). -/
def usedCountOf : List (String × ℕ) → String → ℕ
  | [], _ => 0
  | (k, c) :: r, s => if k = s then c else usedCountOf r s

/-- How many of the first `i` headings take the section branch (no type
declaration on the following line) with candidate slug `s` — the number of
earlier uses of `s` in the section-slug namespace. -/
def priorSlugCount (declMap : List (ℕ × EmbeddedType)) (hs : List Heading)
    (i : ℕ) (s : String) : ℕ :=
  ((hs.take i).filter
    (fun h => (lookupLine declMap (h.line + 1)).isNone && (sectionBaseSlug h == s))).length

/-- Is this event a heading-start or heading-end event?  (Used to state that
non-heading lines contribute no heading structure.) -/
def isHeadingEvt : MdEvent → Bool
  | .startHeading _ _ => true
  | .endHeading => true
  | _ => false

/-- The concatenated text payloads of a run of text/code events (the heading
text accumulated by `extract_headings`; code events are not accumulated). -/
def segText : List MdEvent → List Char
  | [] => []
  | .text s :: r => s.data ++ segText r
  | _ :: r => segText r

/-- The id pushed onto the parent stack for heading `h` (both branches of
the heading loop of src/parser/document.rs lines 195–263): the embedded id
when the next line has a type declaration, else the disambiguated section
slug. -/
def pushedId (fileId : String) (declMap : List (ℕ × EmbeddedType))
    (used : List (String × ℕ)) (h : Heading) : String :=
  match lookupLine declMap (h.line + 1) with
  | some emb => fileId ++ "#" ++ emb.id
  | none =>
    let slug := sectionBaseSlug h
    let count := (bumpCount used slug).1
    fileId ++ "#" ++ (if count = 1 then slug else slug ++ "-" ++ Nat.repr count)

/-- The `used_ids` counter state after processing heading `h`: unchanged in
the typed branch, bumped for the section slug otherwise. -/
def usedAfter (declMap : List (ℕ × EmbeddedType)) (used : List (String × ℕ))
    (h : Heading) : List (String × ℕ) :=
  match lookupLine declMap (h.line + 1) with
  | some _ => used
  | none => (bumpCount used (sectionBaseSlug h)).2

/-- The (parent stack, used ids) state after the heading loop has processed a
list of headings. -/
def stackUsedAfter (fileId : String) (declMap : List (ℕ × EmbeddedType)) :
    List Heading → List (String × ℕ) × List (String × ℕ) →
      List (String × ℕ) × List (String × ℕ)
  | [], su => su
  | h :: rest, su =>
    stackUsedAfter fileId declMap rest
      ((pushedId fileId declMap su.2 h, h.level) :: popStack su.1 h.level,
        usedAfter declMap su.2 h)

/-- Invariant of the parent stack after the heading loop has processed the
first `i` headings: the stack is a list of entries attributed to heading
indices `idxs` (most recent first) above the root entry; each entry carries
the id of the object emitted for its heading and that heading's level;
indices and levels are strictly decreasing towards the root; and every
processed heading absent from the stack is dominated by a later stack entry
of level ≤ its own. -/
def StackInv (objs : List ParsedObject) (hs : List Heading) (fileId : String)
    (i : ℕ) (S : List (String × ℕ)) : Prop :=
  ∃ idxs : List ℕ,
    S.length = idxs.length + 1 ∧
    S.get? idxs.length = some (fileId, 0) ∧
    (∀ s j, idxs.get? s = some j → j < i ∧ ∃ obj h_j, objs.get? j = some obj ∧
      hs.get? j = some h_j ∧ S.get? s = some (obj.id, h_j.level)) ∧
    (∀ s s' j j', s < s' → idxs.get? s = some j → idxs.get? s' = some j' → j' < j) ∧
    (∀ s s' j j' h_j h_j', s < s' → idxs.get? s = some j → idxs.get? s' = some j' →
      hs.get? j = some h_j → hs.get? j' = some h_j' → h_j'.level < h_j.level) ∧
    (∀ m h_m, m < i → hs.get? m = some h_m → ¬ m ∈ idxs →
      ∃ j h_j, j ∈ idxs ∧ m < j ∧ hs.get? j = some h_j ∧ h_j.level ≤ h_m.level)

/-! ## Supporting lemmas -/

theorem splitTopLevel_go_chunk_le (l : List Char) (cur : List Char) (d : ℤ)
    (q : Bool) : ∀ c ∈ splitTopLevel.go l cur d q, c.length ≤ l.length + cur.length := by
  induction l generalizing cur d q with
  | nil =>
    intro c hc
    simp only [splitTopLevel.go, List.mem_singleton] at hc
    simp [hc]
  | cons x rest ih =>
    intro c hc
    simp only [splitTopLevel.go] at hc
    repeat' split at hc
    all_goals
      first
      | (obtain h | h := List.mem_cons.mp hc
         · simp only [h, List.length_reverse, List.length_cons]; omega
         · have := ih _ _ _ _ h; simp only [List.length_nil, List.length_cons] at *; omega)
      | (skip; have := ih _ _ _ _ hc; simp only [List.length_cons] at *; omega)

theorem splitTopLevel_chunk_le (l : List Char) :
    ∀ c ∈ splitTopLevel l, c.length ≤ l.length := by
  intro c hc
  have := splitTopLevel_go_chunk_le l [] 0 false c hc
  simpa using this

theorem trimLC_length_le (l : List Char) : (trimLC l).length ≤ l.length := by
  have h₁ : (ltrim l).length ≤ l.length := (List.dropWhile_sublist _).length_le
  have h₂ : (rtrim (ltrim l)).length ≤ (ltrim l).length := by
    unfold rtrim
    have hsub : ((ltrim l).reverse.dropWhile isWs).Sublist (ltrim l).reverse :=
      List.dropWhile_sublist isWs
    simpa using hsub.length_le
  exact le_trans h₂ h₁

theorem parseValueFuel_fuel_irrel :
    ∀ fuel₁ fuel₂ l, l.length < fuel₁ → l.length < fuel₂ →
      parseValueFuel fuel₁ l = parseValueFuel fuel₂ l := by
  intro fuel₁
  induction fuel₁ with
  | zero => intro fuel₂ l h₁; omega
  | succ f₁ ih =>
    intro fuel₂ l h₁ h₂
    match fuel₂, h₂ with
    | f₂ + 1, h₂ =>
      simp only [parseValueFuel]
      cases hs : trimLC l with
      | nil => rfl
      | cons a t =>
        have hlen : t.length + 1 ≤ l.length := by
          have := trimLC_length_le l
          rw [hs] at this
          simpa using this
        have hmap : (splitTopLevel (((a :: t).drop 1).dropLast)).map (parseValueFuel f₁)
            = (splitTopLevel (((a :: t).drop 1).dropLast)).map (parseValueFuel f₂) := by
          apply List.map_congr_left
          intro c hc
          have h₁c : c.length ≤ (((a :: t).drop 1).dropLast).length :=
            splitTopLevel_chunk_le _ c hc
          simp only [List.drop_one, List.tail_cons, List.length_dropLast,
            List.length_cons] at h₁c
          exact ih f₂ c (by omega) (by omega)
        simp only [hmap]

/-- Unfolding equation for `parse_value` matching the Rust source: the
recursive call on an array chunk is again `parse_value`. -/
theorem parse_value_eq (l : List Char) :
    parse_value l =
      match trimLC l with
      | [] => .Null
      | a :: t =>
        let s := a :: t
        if startsWithLC "[[".data s ∧ ¬ startsWithLC "[[[".data s ∧ endsWithLC "]]".data s then
          .Ref ⟨(s.drop 2).dropLast.dropLast⟩
        else if startsWithLC ['['] s ∧ endsWithLC [']'] s then
          let items := (splitTopLevel ((s.drop 1).dropLast)).map (fun c => parse_value c)
          .Array (items.filter (fun v => ¬ fvIsNull v))
        else if startsWithLC ['"'] s ∧ endsWithLC ['"'] s ∧ 2 ≤ s.length then
          .String ⟨(s.drop 1).dropLast⟩
        else if s = "true".data then .Bool true
        else if s = "false".data then .Bool false
        else
          match parseF64 s with
          | some v => .Number v
          | none =>
            if 10 ≤ s.length ∧ (s.take 4).all Char.isDigit ∧ s.contains 'T' then .Datetime ⟨s⟩
            else if s.length = 10 ∧ (s.take 4).all Char.isDigit then .Date ⟨s⟩
            else if s.length = 5 ∧ s.get? 2 = some ':' then .String ⟨s⟩
            else .String ⟨s⟩ := by
  conv_lhs => rw [parse_value, parseValueFuel]
  cases hs : trimLC l with
  | nil => rfl
  | cons a t =>
    have hlen : t.length + 1 ≤ l.length := by
      have := trimLC_length_le l
      rw [hs] at this
      simpa using this
    have hmap : (splitTopLevel (((a :: t).drop 1).dropLast)).map (parseValueFuel l.length)
        = (splitTopLevel (((a :: t).drop 1).dropLast)).map (fun c => parse_value c) := by
      apply List.map_congr_left
      intro c hc
      have h₁c : c.length ≤ (((a :: t).drop 1).dropLast).length :=
        splitTopLevel_chunk_le _ c hc
      simp only [List.drop_one, List.tail_cons, List.length_dropLast,
        List.length_cons] at h₁c
      exact parseValueFuel_fuel_irrel _ _ c (by omega) (by omega)
    simp only [hmap]
/-! ## Claim C7 — date/datetime coercion in `parse_value` -/

/-- C7 (counterexample): the claim says a fragment surviving the earlier
tests becomes `Date` exactly when it has the 10-character `dddd-dd-dd` shape.
The fragment `1234abcdef` survives every earlier test (in particular it does
not parse as a number), has no `-` at all (`is_date_string` is false), yet
`parse_value` coerces it to `Date`, not `String`; and `2025-01-01T00`
(length 13 < 16) is coerced to `Datetime` although the claim requires
length ≥ 16. -/
theorem C7_counterexample :
    parseF64 "1234abcdef".data = none ∧
    is_date_string "1234abcdef".data = false ∧
    parse_value "1234abcdef".data = .Date "1234abcdef" ∧
    parse_value "1234abcdef".data ≠ .String "1234abcdef" ∧
    is_datetime_string "2025-01-01T00".data = false ∧
    parse_value "2025-01-01T00".data = .Datetime "2025-01-01T00" := by
  refine ⟨rfl, rfl, rfl, ?_, rfl, rfl⟩
  intro h
  rw [show parse_value "1234abcdef".data = .Date "1234abcdef" from rfl] at h
  exact FieldValue.noConfusion h

/-- C7 (amended): for a fragment that survives the earlier tests (non-empty
after trimming, not a reference, array, quoted string, boolean, or number),
`parse_value` yields `Datetime` exactly when the trimmed fragment has length
≥ 10, its first four characters are ASCII digits, and it contains `T`; it
yields `Date` exactly when the trimmed fragment has length exactly 10, its
first four characters are ASCII digits, and it does not contain `T`; and any
other such fragment becomes the `String` of the trimmed fragment.  The full
`dddd-dd-dd` shape and the length ≥ 16 datetime test of the claim are the
frontmatter reader's `is_date_string`/`is_datetime_string`, not this
parser's. -/
theorem C7_amended (l : List Char)
    (h₁ : trimLC l ≠ [])
    (h₂ : ¬ (startsWithLC "[[".data (trimLC l) ∧ ¬ startsWithLC "[[[".data (trimLC l) ∧
      endsWithLC "]]".data (trimLC l)))
    (h₃ : ¬ (startsWithLC ['['] (trimLC l) ∧ endsWithLC [']'] (trimLC l)))
    (h₄ : ¬ (startsWithLC ['"'] (trimLC l) ∧ endsWithLC ['"'] (trimLC l) ∧
      2 ≤ (trimLC l).length))
    (h₅ : trimLC l ≠ "true".data) (h₆ : trimLC l ≠ "false".data)
    (h₇ : parseF64 (trimLC l) = none) :
    (parse_value l = .Datetime ⟨trimLC l⟩ ↔
      10 ≤ (trimLC l).length ∧ ((trimLC l).take 4).all Char.isDigit ∧
        (trimLC l).contains 'T') ∧
    (parse_value l = .Date ⟨trimLC l⟩ ↔
      (trimLC l).length = 10 ∧ ((trimLC l).take 4).all Char.isDigit ∧
        ¬ (trimLC l).contains 'T') ∧
    (¬ (10 ≤ (trimLC l).length ∧ ((trimLC l).take 4).all Char.isDigit ∧
        (trimLC l).contains 'T') ∧
      ¬ ((trimLC l).length = 10 ∧ ((trimLC l).take 4).all Char.isDigit ∧
        ¬ (trimLC l).contains 'T') →
      parse_value l = .String ⟨trimLC l⟩) := by
  rw [parse_value_eq]
  cases hs : trimLC l with
  | nil => exact absurd hs h₁
  | cons a t =>
    rw [hs] at h₂ h₃ h₄ h₅ h₆ h₇
    simp only [if_neg h₂, if_neg h₃, if_neg h₄, if_neg h₅, if_neg h₆, h₇]
    refine ⟨?_, ?_, ?_⟩
    · constructor
      · intro h
        by_cases hdt : 10 ≤ (a :: t).length ∧ ((a :: t).take 4).all Char.isDigit ∧
            (a :: t).contains 'T'
        · exact hdt
        · rw [if_neg hdt] at h
          split at h <;> first
            | exact absurd h (fun hh => FieldValue.noConfusion hh)
            | (split at h <;> exact absurd h (fun hh => FieldValue.noConfusion hh))
      · intro hdt
        rw [if_pos hdt]
    · constructor
      · intro h
        by_cases hdt : 10 ≤ (a :: t).length ∧ ((a :: t).take 4).all Char.isDigit ∧
            (a :: t).contains 'T'
        · rw [if_pos hdt] at h
          exact absurd h (fun hh => FieldValue.noConfusion hh)
        · rw [if_neg hdt] at h
          by_cases hd : (a :: t).length = 10 ∧ ((a :: t).take 4).all Char.isDigit
          · refine ⟨hd.1, hd.2, ?_⟩
            intro hT
            exact hdt ⟨by omega, hd.2, hT⟩
          · rw [if_neg hd] at h
            split at h <;> exact absurd h (fun hh => FieldValue.noConfusion hh)
      · intro ⟨hlen, hdig, hT⟩
        rw [if_neg (fun hdt => hT hdt.2.2), if_pos ⟨hlen, hdig⟩]
    · intro ⟨hA, hB⟩
      rw [if_neg hA]
      have hd : ¬ ((a :: t).length = 10 ∧ ((a :: t).take 4).all Char.isDigit) := by
        intro hd
        by_cases hT : (a :: t).contains 'T'
        · exact hA ⟨by omega, hd.2, hT⟩
        · exact hB ⟨hd.1, hd.2, hT⟩
      rw [if_neg hd]
      split
      · rfl
      · rfl

/-- C7 (witness): the amended theorem applied at two concrete fragments that
survive the earlier tests — `2025-02-03` is coerced to `Date`, while
`hello world` matches neither date shape and falls back to `String`. -/
theorem C7_witness :
    parse_value "2025-02-03".data = .Date "2025-02-03" ∧
    parse_value "hello world".data = .String "hello world" := by
  constructor
  · have h := C7_amended "2025-02-03".data (by decide) (by decide) (by decide)
      (by decide) (by decide) (by decide) (by decide)
    exact h.2.1.mpr (by decide)
  · have h := C7_amended "hello world".data (by decide) (by decide) (by decide)
      (by decide) (by decide) (by decide) (by decide)
    exact h.2.2 (by decide)

/-! ## Claim C6 — frontmatter recognition -/

/-- C6 (counterexample): the claim requires the delimiters to be *exactly*
`---`, but both delimiter tests in `parse_frontmatter` trim the line first.
With first line `" ---"` (a leading space — not exactly `---`) frontmatter is
recognized, its mapping decoded, and the body is no longer the original
text. -/
theorem C6_counterexample :
    ((rustLines " ---\na: b\n ---\nx").headD "") ≠ "---" ∧
    parse_frontmatter " ---\na: b\n ---\nx" =
      .ok (some { object_type := none, fields := [("a", .String "b")]
                  tags := [], end_line := 3 }) ∧
    documentBody " ---\na: b\n ---\nx"
      (some { object_type := none, fields := [("a", .String "b")]
              tags := [], end_line := 3 }) = "x" ∧
    (" ---\na: b\n ---\nx" : String) ≠ "x" := by
  exact ⟨by decide, rfl, rfl, by decide⟩

/-- C6 (amended): frontmatter is recognized only when the document's first
line *trims* to `---` and some later line *trims* to `---`; when the first
line does not trim to `---`, or no later line does, no frontmatter is present
and the body handed to the rest of the parser is the original text
unchanged. -/
theorem C6_amended (content : String) :
    (∀ fm, parse_frontmatter content = .ok (some fm) →
      trimS ((rustLines content).headD "") = "---" ∧
      ∃ l ∈ (rustLines content).drop 1, trimS l = "---") ∧
    ((trimS ((rustLines content).headD "") ≠ "---" ∨
        ∀ l ∈ (rustLines content).drop 1, trimS l ≠ "---") →
      parse_frontmatter content = .ok none ∧ documentBody content none = content) := by
  constructor
  · intro fm hfm
    rw [parse_frontmatter] at hfm
    split at hfm
    · exact absurd hfm (by simp)
    · rename_i hcond
      push_neg at hcond
      refine ⟨hcond.2, ?_⟩
      revert hfm
      split
      · intro hfm; exact absurd hfm (by simp)
      · rename_i i hidx
        intro _
        obtain ⟨hlt, hget, -⟩ := List.findIdx?_eq_some_iff_getElem.mp hidx
        refine ⟨((rustLines content).drop 1)[i], List.getElem_mem _, ?_⟩
        simpa using hget
  · intro hcond
    refine ⟨?_, rfl⟩
    rw [parse_frontmatter]
    rcases hcond with hne | hall
    · rw [if_pos (Or.inr hne)]
    · split
      · rfl
      · rename_i hcond₂
        have : ((rustLines content).drop 1).findIdx? (fun l => trimS l = "---") = none := by
          rw [List.findIdx?_eq_none_iff]
          intro x hx
          simpa using hall x hx
        rw [this]

/-- C6 (witness): the amended theorem applied at a concrete document whose
first line is not `---`: no frontmatter, body unchanged. -/
theorem C6_witness :
    parse_frontmatter "hello\n---\n" = .ok none ∧
    documentBody "hello\n---\n" none = "hello\n---\n" :=
  (C6_amended "hello\n---\n").2 (Or.inl (by decide))

/-! ## Pipeline inversion lemmas -/

theorem compute_line_ends_get? (objs : List ParsedObject) (k : ℕ) :
    (compute_line_ends objs).get? k =
      (objs.get? k).map
        (fun o => { o with line_end := computeEndAt (objs.map (·.line_start)) k }) := by
  rw [compute_line_ends, List.get?_map, List.enum_get?]
  cases objs.get? k <;> rfl

theorem lookupLine_mem {m : List (ℕ × EmbeddedType)} {n : ℕ} {emb : EmbeddedType}
    (h : lookupLine m n = some emb) : (n, emb) ∈ m := by
  induction m with
  | nil => simp [lookupLine] at h
  | cons kv rest ih =>
    rw [lookupLine] at h
    split at h
    · rename_i heq
      cases h
      simp [← heq]
    · exact List.mem_cons_of_mem _ (ih h)

theorem buildTypeDeclMap_entry :
    ∀ (lines : List String) (n : ℕ) (declMap : List (ℕ × EmbeddedType)),
      buildTypeDeclMap lines n = .ok declMap →
      ∀ k emb, (k, emb) ∈ declMap →
        emb.id = ((fieldsGet emb.fields "id").bind fvAsStr).getD "" ∧ emb.tags = [] := by
  intro lines
  induction lines with
  | nil =>
    intro n declMap h k emb hmem
    rw [buildTypeDeclMap] at h
    cases h
    simp at hmem
  | cons l rest ih =>
    intro n declMap h k emb hmem
    rw [buildTypeDeclMap] at h
    simp only [bind, Except.bind] at h
    cases he : parse_embedded_type l n with
    | error e => rw [he] at h; exact absurd h (by simp)
    | ok oe =>
      rw [he] at h
      cases hm : buildTypeDeclMap rest (n + 1) with
      | error e => rw [hm] at h; exact absurd h (by simp)
      | ok m =>
        rw [hm] at h
        cases oe with
        | none =>
          simp only [Except.ok.injEq] at h
          subst h
          exact ih (n + 1) m hm k emb hmem
        | some e₀ =>
          simp only [Except.ok.injEq] at h
          subst h
          rcases List.mem_cons.mp hmem with heq | hmem₂
          · cases heq
            rw [parse_embedded_type] at he
            cases hd : parse_type_declaration l n with
            | error e => rw [hd] at he; exact absurd he (by simp [Except.map])
            | ok od =>
              rw [hd] at he
              cases od with
              | none => exact absurd he (by simp [Except.map])
              | some decl =>
                simp only [Except.map, Except.ok.injEq, Option.map] at he
                cases he
                constructor
                · show decl.id.getD "" = _
                  rw [parse_type_declaration] at hd
                  split at hd
                  · exact absurd hd (by simp)
                  · revert hd
                    split
                    · intro hd; exact absurd hd (by simp)
                    · intro hd
                      simp only [Except.ok.injEq, Option.some.injEq] at hd
                      rw [← hd]
                · rfl
          · exact ih (n + 1) m hm k emb hmem₂

theorem buildObjectsGo_get?_typed (fileId : String)
    (declMap : List (ℕ × EmbeddedType)) :
    ∀ (hs : List Heading) (i : ℕ) (h : Heading) (emb : EmbeddedType)
      (stack used : List (String × ℕ)),
      hs.get? i = some h → lookupLine declMap (h.line + 1) = some emb →
      ∃ p, (buildObjectsGo fileId declMap hs stack used).get? i = some
        { id := fileId ++ "#" ++ emb.id, object_type := emb.type_name
          fields := emb.fields, tags := emb.tags, heading := some h.text
          heading_level := some h.level, parent_id := some p
          line_start := h.line, line_end := none } := by
  intro hs
  induction hs with
  | nil => intro i h emb stack used hh; simp at hh
  | cons h₀ rest ih =>
    intro i h emb stack used hh hd
    cases i with
    | zero =>
      simp only [List.get?_cons_zero, Option.some.injEq] at hh
      subst hh
      rw [buildObjectsGo, hd]
      exact ⟨_, rfl⟩
    | succ i =>
      simp only [List.get?_cons_succ] at hh
      rw [buildObjectsGo]
      split
      · exact ih i h emb _ _ hh hd
      · exact ih i h emb _ _ hh hd

theorem parse_document_ok_parts {content relativePath : String}
    {fm : Option Frontmatter} {declMap : List (ℕ × EmbeddedType)}
    {d : ParsedDocument}
    (hfm : parse_frontmatter content = .ok fm)
    (hmap : buildTypeDeclMap (rustLines (documentBody content fm))
      (contentStartLine fm) = .ok declMap)
    (hok : parse_document content relativePath = .ok d) :
    d.file_path = relativePath ∧
    d.objects = compute_line_ends (objectsOf (stripDotMd relativePath) fm
      (documentBody content fm) (contentStartLine fm) declMap) ∧
    d.traits = traitsOf (objectsOf (stripDotMd relativePath) fm
      (documentBody content fm) (contentStartLine fm) declMap)
      (rustLines (documentBody content fm)) (contentStartLine fm) ∧
    d.refs = refsOf (objectsOf (stripDotMd relativePath) fm
      (documentBody content fm) (contentStartLine fm) declMap)
      (documentBody content fm) (contentStartLine fm) := by
  simp only [parse_document, hfm, hmap, Except.ok.injEq] at hok
  subst hok
  exact ⟨rfl, rfl, rfl, rfl⟩

/-! ## Claim C4 — typed objects from type declarations -/

/-- C4: for every heading whose next line carries a valid type declaration
with an `id=v` argument, the builder emits a typed object with identifier
`file#v` and the declared type name (never a generic section id); and the
spec's concrete example yields exactly 2 objects, the second being
`meetings#standup` of type `meeting` with field `time` = String `"09:00"`. -/
theorem C4_typed_object (content relativePath : String)
    (fm : Option Frontmatter) (declMap : List (ℕ × EmbeddedType))
    (d : ParsedDocument) (i : ℕ) (h : Heading) (emb : EmbeddedType) (v : String)
    (hfm : parse_frontmatter content = .ok fm)
    (hmap : buildTypeDeclMap (rustLines (documentBody content fm))
      (contentStartLine fm) = .ok declMap)
    (hok : parse_document content relativePath = .ok d)
    (hh : (extract_headings (documentBody content fm)
      (contentStartLine fm)).get? i = some h)
    (hd : lookupLine declMap (h.line + 1) = some emb)
    (hv : (fieldsGet emb.fields "id").bind fvAsStr = some v) :
    ∃ obj, d.objects.get? (i + 1) = some obj ∧
      obj.id = stripDotMd relativePath ++ "#" ++ v ∧
      obj.object_type = emb.type_name ∧
      obj.heading = some h.text ∧
      obj.fields = emb.fields := by
  obtain ⟨-, hobjs, -, -⟩ := parse_document_ok_parts hfm hmap hok
  have hid : emb.id = v := by
    have hm := buildTypeDeclMap_entry _ _ _ hmap _ emb (lookupLine_mem hd)
    rw [hm.1, hv]
    rfl
  obtain ⟨p, hp⟩ := buildObjectsGo_get?_typed (stripDotMd relativePath) declMap
    (extract_headings (documentBody content fm) (contentStartLine fm)) i h emb
    [(stripDotMd relativePath, 0)] [] hh hd
  rw [hobjs, compute_line_ends_get?]
  rw [objectsOf]
  simp only [List.get?_cons_succ, hp, Option.map_some]
  exact ⟨_, rfl, by simp [hid], rfl, rfl, rfl⟩

/-- C4 (witness): the claim's example — parsing
`"# Weekly Standup\n::meeting(id=standup, time=09:00)\n\nNotes.\n"` at path
`meetings.md` yields exactly 2 objects; the general theorem applied at that
document's heading gives the second object `meetings#standup` of type
`meeting`, whose `time` field is String `"09:00"`. -/
theorem C4_witness :
    ∃ d, parse_document "# Weekly Standup\n::meeting(id=standup, time=09:00)\n\nNotes.\n"
        "meetings.md" = .ok d ∧
      d.objects.length = 2 ∧
      (∃ obj, d.objects.get? 1 = some obj ∧
        obj.id = "meetings" ++ "#" ++ "standup" ∧
        obj.object_type = "meeting" ∧
        obj.heading = some "Weekly Standup" ∧
        fieldsGet obj.fields "time" = some (.String "09:00")) := by
  refine ⟨_, rfl, by rfl, ?_⟩
  obtain ⟨obj, h₁, h₂, h₃, h₄, h₅⟩ :=
    C4_typed_object
      "# Weekly Standup\n::meeting(id=standup, time=09:00)\n\nNotes.\n"
      "meetings.md" none
      [(2, { type_name := "meeting", id := "standup"
             fields := [("id", .String "standup"), ("time", .String "09:00")]
             tags := [], line := 2 })]
      _ 0 { level := 1, text := "Weekly Standup", line := 1 }
      { type_name := "meeting", id := "standup"
        fields := [("id", .String "standup"), ("time", .String "09:00")]
        tags := [], line := 2 }
      "standup" rfl rfl rfl rfl rfl rfl
  refine ⟨obj, h₁, h₂, h₃, h₄, ?_⟩
  rw [h₅]
  rfl

/-! ## Section-slug disambiguation lemmas -/

theorem bumpCount_fst (used : List (String × ℕ)) (s : String) :
    (bumpCount used s).1 = usedCountOf used s + 1 := by
  induction used with
  | nil => rfl
  | cons kv r ih =>
    obtain ⟨k, c⟩ := kv
    by_cases h : k = s
    · simp [bumpCount, usedCountOf, h]
    · simp [bumpCount, usedCountOf, h, ih]

theorem bumpCount_snd (used : List (String × ℕ)) (s t : String) :
    usedCountOf (bumpCount used s).2 t =
      if t = s then usedCountOf used s + 1 else usedCountOf used t := by
  induction used with
  | nil =>
    by_cases h : t = s
    · subst h; simp [bumpCount, usedCountOf]
    · have h₂ : ¬ (s = t) := fun hs => h hs.symm
      rw [if_neg h]
      simp only [bumpCount, usedCountOf]
      rw [if_neg h₂]
  | cons kv r ih =>
    obtain ⟨k, c⟩ := kv
    by_cases hk : k = s
    · subst hk
      by_cases ht : t = k
      · subst ht; simp [bumpCount, usedCountOf]
      · have ht₂ : ¬ (k = t) := fun h => ht h.symm
        simp [bumpCount, usedCountOf, ht, ht₂]
    · by_cases ht : t = k
      · subst ht
        simp [bumpCount, usedCountOf, hk]
      · have ht₂ : ¬ (k = t) := fun h => ht h.symm
        simp only [bumpCount, if_neg hk, usedCountOf, ht₂, if_false, ih]

theorem priorSlugCount_zero (declMap : List (ℕ × EmbeddedType)) (hs : List Heading)
    (s : String) : priorSlugCount declMap hs 0 s = 0 := by
  simp [priorSlugCount]

theorem priorSlugCount_cons (declMap : List (ℕ × EmbeddedType)) (h₀ : Heading)
    (rest : List Heading) (i : ℕ) (s : String) :
    priorSlugCount declMap (h₀ :: rest) (i + 1) s =
      (if (lookupLine declMap (h₀.line + 1)).isNone ∧ sectionBaseSlug h₀ = s
       then 1 else 0) + priorSlugCount declMap rest i s := by
  simp only [priorSlugCount, List.take_succ_cons, List.filter]
  split
  · rename_i hcond
    rw [if_pos]
    · simp [List.length_cons, Nat.add_comm]
    · simpa using hcond
  · rename_i hcond
    rw [if_neg]
    · simp
    · simpa using hcond

theorem buildObjectsGo_get?_section (fileId : String)
    (declMap : List (ℕ × EmbeddedType)) :
    ∀ (hs : List Heading) (i : ℕ) (h : Heading) (stack used : List (String × ℕ)),
      hs.get? i = some h → lookupLine declMap (h.line + 1) = none →
      ∃ p, (buildObjectsGo fileId declMap hs stack used).get? i = some
        { id := fileId ++ "#" ++
            (if usedCountOf used (sectionBaseSlug h) +
                priorSlugCount declMap hs i (sectionBaseSlug h) = 0
             then sectionBaseSlug h
             else sectionBaseSlug h ++ "-" ++
               Nat.repr (usedCountOf used (sectionBaseSlug h) +
                 priorSlugCount declMap hs i (sectionBaseSlug h) + 1))
          object_type := "section"
          fields := fieldsInsert (fieldsInsert [] "title" (.String h.text)) "level"
            (.Number (.finite h.level))
          tags := [], heading := some h.text, heading_level := some h.level
          parent_id := some p, line_start := h.line, line_end := none } := by
  intro hs
  induction hs with
  | nil => intro i h stack used hh; simp at hh
  | cons h₀ rest ih =>
    intro i h stack used hh hd
    cases i with
    | zero =>
      simp only [List.get?_cons_zero, Option.some.injEq] at hh
      subst hh
      rw [buildObjectsGo, hd]
      rw [priorSlugCount_zero]
      refine ⟨((popStack stack h₀.level).headD (fileId, 0)).1, ?_⟩
      simp only [List.get?_cons_zero, Option.some.injEq]
      have hcount := bumpCount_fst used (sectionBaseSlug h₀)
      congr 1
      rw [hcount]
      by_cases hz : usedCountOf used (sectionBaseSlug h₀) = 0
      · rw [hz]
        simp
      · rw [if_neg (by omega), if_neg (by omega)]
    | succ i =>
      simp only [List.get?_cons_succ] at hh
      rw [buildObjectsGo]
      cases hd₀ : lookupLine declMap (h₀.line + 1) with
      | some emb =>
        simp only [List.get?_cons_succ]
        obtain ⟨p, hp⟩ := ih i h
          ((fileId ++ "#" ++ emb.id, h₀.level) :: popStack stack h₀.level) used hh hd
        refine ⟨p, ?_⟩
        have hcounts : priorSlugCount declMap (h₀ :: rest) (i + 1) (sectionBaseSlug h)
            = priorSlugCount declMap rest i (sectionBaseSlug h) := by
          rw [priorSlugCount_cons, hd₀]
          simp
        rw [hcounts, hp]
      | none =>
        simp only [List.get?_cons_succ]
        obtain ⟨p, hp⟩ := ih i h _ (bumpCount used (sectionBaseSlug h₀)).2 hh hd
        refine ⟨p, ?_⟩
        have hcounts : usedCountOf (bumpCount used (sectionBaseSlug h₀)).2
              (sectionBaseSlug h) + priorSlugCount declMap rest i (sectionBaseSlug h)
            = usedCountOf used (sectionBaseSlug h) +
              priorSlugCount declMap (h₀ :: rest) (i + 1) (sectionBaseSlug h) := by
          rw [bumpCount_snd, priorSlugCount_cons, hd₀]
          by_cases hss : sectionBaseSlug h = sectionBaseSlug h₀
          · rw [if_pos hss, if_pos (by simpa using hss.symm), hss]
            omega
          · rw [if_neg hss,
              if_neg (by simp only [Option.isNone_none, true_and]; exact fun he => hss he.symm)]
            omega
        rw [hp, ← hcounts]

/-! ## Claim C1 — identifier uniqueness and slug disambiguation -/

/-- C1 (counterexample): identifiers are *not* unique over all documents —
two type-declaration lines declaring the same explicit id produce two objects
with the same identifier, because explicit declared ids bypass the `used_ids`
counter (src/parser/document.rs lines 205–221). -/
theorem C1_counterexample :
    ∃ d, parse_document "# A\n::t(id=x)\n# B\n::t(id=x)" "d.md" = .ok d ∧
      d.objects.map (·.id) = ["d", "d#x", "d#x"] ∧
      ¬ (["d", "d#x", "d#x"] : List String).Pairwise (· ≠ ·) :=
  ⟨_, rfl, rfl, by decide⟩

/-- C1 (amended): the per-document slug counter disambiguates only the
*section* namespace — when a candidate section slug is used more than once,
the first use keeps the bare id and the n-th later use gets the suffix
`-(n+1)`, in order of appearance; explicit type-declaration ids are not
disambiguated, so global uniqueness fails (see the counterexample). -/
theorem C1_amended (content relativePath : String) (fm : Option Frontmatter)
    (declMap : List (ℕ × EmbeddedType)) (d : ParsedDocument) (i : ℕ) (h : Heading)
    (hfm : parse_frontmatter content = .ok fm)
    (hmap : buildTypeDeclMap (rustLines (documentBody content fm))
      (contentStartLine fm) = .ok declMap)
    (hok : parse_document content relativePath = .ok d)
    (hh : (extract_headings (documentBody content fm)
      (contentStartLine fm)).get? i = some h)
    (hd : lookupLine declMap (h.line + 1) = none) :
    ∃ obj, d.objects.get? (i + 1) = some obj ∧
      obj.object_type = "section" ∧
      obj.id = stripDotMd relativePath ++ "#" ++
        (if priorSlugCount declMap (extract_headings (documentBody content fm)
            (contentStartLine fm)) i (sectionBaseSlug h) = 0
         then sectionBaseSlug h
         else sectionBaseSlug h ++ "-" ++
           Nat.repr (priorSlugCount declMap (extract_headings (documentBody content fm)
            (contentStartLine fm)) i (sectionBaseSlug h) + 1)) := by
  obtain ⟨-, hobjs, -, -⟩ := parse_document_ok_parts hfm hmap hok
  obtain ⟨p, hp⟩ := buildObjectsGo_get?_section (stripDotMd relativePath) declMap
    (extract_headings (documentBody content fm) (contentStartLine fm)) i h
    [(stripDotMd relativePath, 0)] [] hh hd
  rw [hobjs, compute_line_ends_get?, objectsOf]
  simp only [List.get?_cons_succ, hp, Option.map_some]
  refine ⟨_, rfl, rfl, ?_⟩
  show _ ++ _ ++ _ = _
  rw [show usedCountOf [] (sectionBaseSlug h) = 0 from rfl]
  simp only [Nat.zero_add]

/-- C1 (witness): two sibling `## Ideas` headings under one `# Notes` heading
— the amended theorem applied at the second occurrence yields `doc#ideas-2`
(and at the first occurrence the bare `doc#ideas`). -/
theorem C1_witness :
    ∃ obj₁ obj₂ d,
      parse_document "# Notes\n\n## Ideas\n\nFirst.\n\n## Ideas\n" "doc.md" = .ok d ∧
      d.objects.get? 2 = some obj₁ ∧ obj₁.id = "doc#ideas" ∧
      d.objects.get? 3 = some obj₂ ∧ obj₂.id = "doc#ideas-2" := by
  obtain ⟨o₁, h₁, -, hid₁⟩ :=
    C1_amended "# Notes\n\n## Ideas\n\nFirst.\n\n## Ideas\n" "doc.md" none []
      _ 1 { level := 2, text := "Ideas", line := 3 } rfl rfl rfl rfl rfl
  obtain ⟨o₂, h₂, -, hid₂⟩ :=
    C1_amended "# Notes\n\n## Ideas\n\nFirst.\n\n## Ideas\n" "doc.md" none []
      _ 2 { level := 2, text := "Ideas", line := 7 } rfl rfl rfl rfl rfl
  refine ⟨o₁, o₂, _, rfl, h₁, ?_, h₂, ?_⟩
  · rw [hid₁]; rfl
  · rw [hid₂]; rfl

/-! ## Trim idempotence -/

theorem rtrim_rtrim (l : List Char) : rtrim (rtrim l) = rtrim l := by
  simp [rtrim, List.dropWhile_idempotent]

theorem rtrim_ltrim_append (l : List Char) :
    ∃ t, rtrim (ltrim l) ++ t = ltrim l := by
  have hsuf : List.IsSuffix ((ltrim l).reverse.dropWhile isWs) (ltrim l).reverse :=
    List.dropWhile_suffix isWs
  obtain ⟨pre, hp⟩ := hsuf
  refine ⟨pre.reverse, ?_⟩
  rw [rtrim, ← List.reverse_append, hp, List.reverse_reverse]

theorem ltrim_rtrim_ltrim (l : List Char) :
    ltrim (rtrim (ltrim l)) = rtrim (ltrim l) := by
  cases hx : rtrim (ltrim l) with
  | nil => rfl
  | cons a t =>
    obtain ⟨tail, hp⟩ := rtrim_ltrim_append l
    rw [hx] at hp
    have hlt : ltrim l = a :: (t ++ tail) := by simpa using hp.symm
    have hlen : 0 < (l.dropWhile isWs).length := by
      rw [show l.dropWhile isWs = ltrim l from rfl, hlt]
      simp
    have ha : ¬ isWs ((l.dropWhile isWs).get ⟨0, hlen⟩) = true :=
      List.dropWhile_get_zero_not isWs l hlen
    have h0 : (l.dropWhile isWs).get? 0 = some a := by
      rw [show l.dropWhile isWs = ltrim l from rfl, hlt]
      rfl
    have h1 : (l.dropWhile isWs).get? 0 = some ((l.dropWhile isWs).get ⟨0, hlen⟩) :=
      List.get?_eq_get hlen
    rw [h0, Option.some.injEq] at h1
    rw [← h1] at ha
    rw [ltrim, List.dropWhile_cons]
    simp [ha]

theorem trimLC_idem (l : List Char) : trimLC (trimLC l) = trimLC l := by
  show rtrim (ltrim (rtrim (ltrim l))) = rtrim (ltrim l)
  rw [ltrim_rtrim_ltrim, rtrim_rtrim]

theorem extractHeadingsGo_text_trimmed :
    ∀ (events : List MdEvent) (cur : Option (ℕ × ℕ)) (txt : List Char),
      ∀ h ∈ extractHeadingsGo events cur txt,
        ∃ t, h.text = ⟨trimLC t⟩ ∧ ¬ (trimLC t).isEmpty := by
  intro events
  induction events with
  | nil => intro cur txt h hh; simp [extractHeadingsGo] at hh
  | cons e rest ih =>
    intro cur txt h hh
    cases e with
    | startHeading lvl ln =>
      simp only [extractHeadingsGo] at hh
      exact ih _ _ h hh
    | text s =>
      simp only [extractHeadingsGo] at hh
      split at hh
      · exact ih _ _ h hh
      · exact ih _ _ h hh
    | code s =>
      simp only [extractHeadingsGo] at hh
      exact ih _ _ h hh
    | startCodeBlock =>
      simp only [extractHeadingsGo] at hh
      exact ih _ _ h hh
    | endCodeBlock =>
      simp only [extractHeadingsGo] at hh
      exact ih _ _ h hh
    | endHeading =>
      cases cur with
      | none =>
        simp only [extractHeadingsGo] at hh
        exact ih _ _ h hh
      | some c =>
        obtain ⟨lvl, ln⟩ := c
        simp only [extractHeadingsGo] at hh
        split at hh
        · exact ih _ _ h hh
        · rename_i hne
          rcases List.mem_cons.mp hh with heq | hmem
          · subst heq
            exact ⟨txt, rfl, hne⟩
          · exact ih _ _ h hmem

/-! ## Claim C10 — empty headings and the section-line fallback -/

/-- C10: every heading the structural scanner emits has non-empty,
non-whitespace text (a heading whose concatenated inline text is empty or
whitespace-only is never emitted, so the builder creates no object for it);
and the `section-<line>` fallback slug is chosen exactly for (emitted, hence
non-empty) headings whose slugification is empty, all other headings keeping
their slugified text. -/
theorem C10_empty_heading_skipped (content : String) (startLine : ℕ) :
    ∀ h ∈ extract_headings content startLine,
      trimLC h.text.data ≠ [] ∧ h.text ≠ "" ∧
      (slugify h.text = "" → sectionBaseSlug h = "section-" ++ Nat.repr h.line) ∧
      (slugify h.text ≠ "" → sectionBaseSlug h = slugify h.text) := by
  intro h hh
  obtain ⟨t, htxt, hne⟩ := extractHeadingsGo_text_trimmed _ _ _ h hh
  have hdata : h.text.data = trimLC t := by rw [htxt]
  have hne₂ : trimLC t ≠ [] := by
    intro hc
    rw [hc] at hne
    exact hne rfl
  refine ⟨?_, ?_, ?_, ?_⟩
  · rw [hdata, trimLC_idem]
    exact hne₂
  · intro hc
    apply hne₂
    rw [← hdata, hc]
  · intro hslug
    rw [sectionBaseSlug, hslug]
    rfl
  · intro hslug
    rw [sectionBaseSlug]
    rw [if_neg]
    intro hc
    apply hslug
    have hd2 : (slugify h.text).data = [] := by simpa using hc
    cases hs : slugify h.text with
    | mk data => rw [hs] at hd2; simp only at hd2; rw [hd2]

/-- C10 (witness): the theorem applied to the document `"# !!!"`, whose only
heading has non-empty punctuation text that slugifies to the empty string,
so the fallback id `section-1` is chosen. -/
theorem C10_witness :
    ({ level := 1, text := "!!!", line := 1 } : Heading) ∈ extract_headings "# !!!" 1 ∧
    sectionBaseSlug { level := 1, text := "!!!", line := 1 } = "section-" ++ Nat.repr 1 := by
  have hmem : ({ level := 1, text := "!!!", line := 1 } : Heading)
      ∈ extract_headings "# !!!" 1 := by
    rw [show extract_headings "# !!!" 1 = [{ level := 1, text := "!!!", line := 1 }] from rfl]
    exact List.mem_singleton.mpr rfl
  have h := C10_empty_heading_skipped "# !!!" 1 _ hmem
  exact ⟨hmem, h.2.2.1 rfl⟩

/-! ## Order properties of the tag sort -/

theorem lcLe_total : ∀ a b : List Char, lcLe a b ∨ lcLe b a
  | [], _ => Or.inl rfl
  | _ :: _, [] => Or.inr rfl
  | a :: as, b :: bs => by
    by_cases hab : a = b
    · subst hab
      rcases lcLe_total as bs with h | h
      · exact Or.inl (by rw [lcLe, if_pos rfl]; exact h)
      · exact Or.inr (by rw [lcLe, if_pos rfl]; exact h)
    · rcases lt_or_gt_of_ne hab with h | h
      · refine Or.inl ?_
        rw [lcLe, if_neg hab, decide_eq_true_iff]
        exact h
      · refine Or.inr ?_
        rw [lcLe, if_neg (fun hc => hab hc.symm), decide_eq_true_iff]
        exact h

theorem lcLe_antisymm : ∀ a b : List Char, lcLe a b → lcLe b a → a = b
  | [], [], _, _ => rfl
  | [], _ :: _, _, h => by simp [lcLe] at h
  | _ :: _, [], h, _ => by simp [lcLe] at h
  | a :: as, b :: bs, h₁, h₂ => by
    by_cases hab : a = b
    · subst hab
      rw [lcLe, if_pos rfl] at h₁ h₂
      rw [lcLe_antisymm as bs h₁ h₂]
    · rw [lcLe, if_neg hab] at h₁
      rw [lcLe, if_neg (fun hc => hab hc.symm)] at h₂
      exact absurd (lt_trans (of_decide_eq_true h₁) (of_decide_eq_true h₂))
        (lt_irrefl a)

theorem lcLe_trans : ∀ a b c : List Char, lcLe a b → lcLe b c → lcLe a c
  | [], _, _, _, _ => rfl
  | _ :: _, [], _, h, _ => by simp [lcLe] at h
  | _ :: _, _ :: _, [], _, h => by simp [lcLe] at h
  | a :: as, b :: bs, c :: cs, h₁, h₂ => by
    by_cases hab : a = b <;> by_cases hbc : b = c
    · subst hab; subst hbc
      rw [lcLe, if_pos rfl] at h₁ h₂ ⊢
      exact lcLe_trans as bs cs h₁ h₂
    · subst hab
      rw [lcLe, if_neg hbc] at h₂ ⊢
      exact h₂
    · subst hbc
      rw [lcLe, if_neg hab] at h₁ ⊢
      exact h₁
    · rw [lcLe, if_neg hab] at h₁
      rw [lcLe, if_neg hbc] at h₂
      have hac : a < c := lt_trans (of_decide_eq_true h₁) (of_decide_eq_true h₂)
      rw [lcLe, if_neg (ne_of_lt hac), decide_eq_true_iff]
      exact hac

theorem mem_insertSortedStr {y x : String} : ∀ {l : List String},
    y ∈ insertSortedStr x l → y = x ∨ y ∈ l := by
  intro l
  induction l with
  | nil => intro h; simpa [insertSortedStr] using h
  | cons z r ih =>
    intro h
    rw [insertSortedStr] at h
    split at h
    · rcases List.mem_cons.mp h with h | h
      · exact Or.inl h
      · exact Or.inr h
    · rcases List.mem_cons.mp h with h | h
      · exact Or.inr (by simp [h])
      · rcases ih h with h | h
        · exact Or.inl h
        · exact Or.inr (List.mem_cons_of_mem _ h)

theorem insertSortedStr_pairwise (x : String) : ∀ (l : List String),
    l.Pairwise (fun a b => lcLe a.data b.data) →
    (insertSortedStr x l).Pairwise (fun a b => lcLe a.data b.data) := by
  intro l
  induction l with
  | nil => intro _; simp [insertSortedStr]
  | cons z r ih =>
    intro hl
    rw [List.pairwise_cons] at hl
    rw [insertSortedStr]
    split
    · rename_i hle
      rw [List.pairwise_cons]
      refine ⟨?_, List.pairwise_cons.mpr hl⟩
      intro b hb
      rcases List.mem_cons.mp hb with h | h
      · rw [h]; exact hle
      · exact lcLe_trans _ _ _ hle (hl.1 b h)
    · rename_i hle
      rw [List.pairwise_cons]
      constructor
      · intro b hb
        rcases mem_insertSortedStr hb with h | h
        · rw [h]
          rcases lcLe_total x.data z.data with hc | hc
          · exact absurd hc hle
          · exact hc
        · exact hl.1 b h
      · exact ih hl.2

theorem sortStrs_pairwise (l : List String) :
    (sortStrs l).Pairwise (fun a b => lcLe a.data b.data) := by
  induction l with
  | nil => simp [sortStrs]
  | cons x r ih => exact insertSortedStr_pairwise x _ ih

theorem mem_dedupAdj {y : String} : ∀ {l : List String}, y ∈ dedupAdj l → y ∈ l := by
  intro l
  induction l with
  | nil => intro h; simp [dedupAdj] at h
  | cons a r ih =>
    intro h
    match r, h with
    | [], h => simpa [dedupAdj] using h
    | b :: r₂, h =>
      rw [dedupAdj] at h
      split at h
      · exact List.mem_cons_of_mem _ (ih h)
      · rcases List.mem_cons.mp h with h | h
        · simp [h]
        · exact List.mem_cons_of_mem _ (ih h)

theorem dedupAdj_pairwise_le : ∀ (l : List String),
    l.Pairwise (fun a b => lcLe a.data b.data) →
    (dedupAdj l).Pairwise (fun a b => lcLe a.data b.data) := by
  intro l
  induction l with
  | nil => intro _; simp [dedupAdj]
  | cons a r ih =>
    intro hl
    match r with
    | [] => simp only [dedupAdj]; exact hl
    | b :: r₂ =>
      rw [List.pairwise_cons] at hl
      rw [dedupAdj]
      split
      · exact ih hl.2
      · rw [List.pairwise_cons]
        exact ⟨fun c hc => hl.1 c (mem_dedupAdj hc), ih hl.2⟩

theorem dedupAdj_pairwise_ne : ∀ (l : List String),
    l.Pairwise (fun a b => lcLe a.data b.data) →
    (dedupAdj l).Pairwise (· ≠ ·) := by
  intro l
  induction l with
  | nil => intro _; simp [dedupAdj]
  | cons a r ih =>
    intro hl
    match r with
    | [] => simp [dedupAdj]
    | b :: r₂ =>
      rw [List.pairwise_cons] at hl
      rw [dedupAdj]
      split
      · exact ih hl.2
      · rename_i hne
        rw [List.pairwise_cons]
        refine ⟨?_, ih hl.2⟩
        intro c hc hac
        rcases List.mem_cons.mp (mem_dedupAdj hc) with h | h
        · exact hne (hac.trans h)
        · have hab : lcLe a.data b.data := hl.1 b (List.mem_cons_self b r₂)
          have hbc : lcLe b.data c.data := (List.pairwise_cons.mp hl.2).1 c h
          subst hac
          have heq : a.data = b.data := lcLe_antisymm _ _ hab hbc
          exact hne (String.ext heq)

theorem fieldsGet_insert (m : Fields) (k : String) (v : FieldValue) :
    fieldsGet (fieldsInsert m k v) k = some v := by
  induction m with
  | nil => simp [fieldsInsert, fieldsGet]
  | cons kv rest ih =>
    obtain ⟨k₀, v₀⟩ := kv
    by_cases h : k₀ = k
    · simp [fieldsInsert, fieldsGet, h]
    · simp [fieldsInsert, fieldsGet, h, ih]

theorem fileTagsOf_eq_filter : ∀ (inline fmTags : List String),
    inline.Pairwise (· ≠ ·) →
    fileTagsOf fmTags inline = fmTags ++ inline.filter (fun t => !(fmTags.contains t)) := by
  intro inline
  induction inline with
  | nil => intro fmTags _; simp [fileTagsOf]
  | cons t rest ih =>
    intro fmTags hpair
    rw [List.pairwise_cons] at hpair
    by_cases hc : fmTags.contains t
    · have hmem : t ∈ fmTags := List.elem_iff.mp hc
      have hstep : fileTagsOf fmTags (t :: rest) = fileTagsOf fmTags rest := by
        simp [fileTagsOf, List.foldl_cons, hmem]
      rw [hstep, ih fmTags hpair.2, List.filter_cons]
      simp [hmem]
    · have hmem : t ∉ fmTags := fun hm => hc (List.elem_iff.mpr hm)
      have hstep : fileTagsOf fmTags (t :: rest) = fileTagsOf (fmTags ++ [t]) rest := by
        simp [fileTagsOf, List.foldl_cons, hmem]
      rw [hstep, ih (fmTags ++ [t]) hpair.2, List.filter_cons]
      have hfilter : rest.filter (fun x => !((fmTags ++ [t]).contains x))
          = rest.filter (fun x => !(fmTags.contains x)) := by
        apply List.filter_congr
        intro x hx
        have hxt : x ≠ t := fun he => (hpair.1 x hx) he.symm
        have hch : ((fmTags ++ [t]).contains x) = (fmTags.contains x) := by
          rw [Bool.eq_iff_iff]
          constructor
          · intro hm
            rcases List.mem_append.mp (List.elem_iff.mp hm) with hm₂ | hm₂
            · exact List.elem_iff.mpr hm₂
            · exact absurd (List.mem_singleton.mp hm₂) hxt
          · intro hm
            exact List.elem_iff.mpr (List.mem_append.mpr (Or.inl (List.elem_iff.mp hm)))
        rw [hch]
      rw [hfilter]
      simp [hmem, List.append_assoc]

/-! ## Claim C9 — root tag aggregation -/

/-- C9 (counterexample): inline tags are collected in *sorted* order, not in
order of first appearance.  In the body `#b #a` the raw scan order is
`[b, a]`, but the root object's tag list is the sorted `[a, b]` — the claim's
appearance-order list `["b", "a"]` is not what the parser produces. -/
theorem C9_counterexample :
    ∃ d root, parse_document "#b #a" "d.md" = .ok d ∧
      d.objects.get? 0 = some root ∧
      extractInlineTagsGo (mdEvents "#b #a" 1) false = ["b", "a"] ∧
      root.tags = ["a", "b"] ∧
      (["a", "b"] : List String) ≠ ["b", "a"] :=
  ⟨_, _, rfl, rfl, rfl, rfl, by decide⟩

/-- C9 (amended): the root object's tag list is the frontmatter tags followed
by the inline tags of the body outside code — the latter sorted
byte-lexicographically and deduplicated (not in appearance order) — skipping
inline tags already present among the frontmatter tags; when the combined
list is non-empty it is also stored under the `tags` key of the root object's
field map. -/
theorem C9_root_tags (content relativePath : String) (fm : Option Frontmatter)
    (declMap : List (ℕ × EmbeddedType)) (d : ParsedDocument)
    (hfm : parse_frontmatter content = .ok fm)
    (hmap : buildTypeDeclMap (rustLines (documentBody content fm))
      (contentStartLine fm) = .ok declMap)
    (hok : parse_document content relativePath = .ok d) :
    ∃ root, d.objects.get? 0 = some root ∧
      root.tags = ((fm.map (·.tags)).getD []) ++
        (extract_inline_tags (documentBody content fm)).filter
          (fun t => !(((fm.map (·.tags)).getD []).contains t)) ∧
      (extract_inline_tags (documentBody content fm)).Pairwise
        (fun a b => lcLe a.data b.data) ∧
      (extract_inline_tags (documentBody content fm)).Pairwise (· ≠ ·) ∧
      (root.tags = [] ∨ fieldsGet root.fields "tags" =
        some (.Array (root.tags.map .String))) := by
  obtain ⟨-, hobjs, -, -⟩ := parse_document_ok_parts hfm hmap hok
  have hsorted : (extract_inline_tags (documentBody content fm)).Pairwise
      (fun a b => lcLe a.data b.data) :=
    dedupAdj_pairwise_le _ (sortStrs_pairwise _)
  have hne : (extract_inline_tags (documentBody content fm)).Pairwise (· ≠ ·) :=
    dedupAdj_pairwise_ne _ (sortStrs_pairwise _)
  rw [hobjs, compute_line_ends_get?, objectsOf]
  simp only [List.get?_cons_zero, Option.map_some]
  refine ⟨_, rfl, ?_, hsorted, hne, ?_⟩
  · show rootTagsOf fm (documentBody content fm) = _
    rw [rootTagsOf, fileTagsOf_eq_filter _ _ hne]
  · show rootTagsOf fm (documentBody content fm) = [] ∨
      fieldsGet (rootObjectOf (stripDotMd relativePath) fm (documentBody content fm)).fields
        "tags" = some (.Array ((rootTagsOf fm (documentBody content fm)).map .String))
    by_cases hz : rootTagsOf fm (documentBody content fm) = []
    · exact Or.inl hz
    · refine Or.inr ?_
      rw [rootObjectOf]
      simp only []
      rw [if_neg (by simpa [List.isEmpty_iff] using hz)]
      exact fieldsGet_insert _ _ _

/-- C9 (witness): the amended theorem applied to the body `#b #a` — no
frontmatter tags, inline tags sorted to `[a, b]`, and the same list stored
under the `tags` field key. -/
theorem C9_witness :
    ∃ d root, parse_document "#b #a" "tags.md" = .ok d ∧
      d.objects.get? 0 = some root ∧
      root.tags = ["a", "b"] ∧
      fieldsGet root.fields "tags" =
        some (.Array [.String "a", .String "b"]) := by
  obtain ⟨root, h₁, h₂, -, -, h₃⟩ :=
    C9_root_tags "#b #a" "tags.md" none [] _ rfl rfl rfl
  refine ⟨_, root, rfl, h₁, ?_, ?_⟩
  · rw [h₂]; rfl
  · rcases h₃ with h | h
    · rw [h₂] at h
      exact absurd h (by decide)
    · rw [h, h₂]
      rfl

/-! ## Claim C8 — hard failures and graceful degradation -/

theorem parse_embedded_type_error_iff (l : String) (n : ℕ) :
    (∃ e, parse_embedded_type l n = .error e) ↔
      (startsWithLC "::".data (trimLC l.data) ∧ matchTypeDecl (trimLC l.data) = none) := by
  rw [parse_embedded_type, parse_type_declaration]
  constructor
  · intro ⟨e, he⟩
    split at he
    · exact absurd he (by simp [Except.map])
    · rename_i hst
      constructor
      · simpa using hst
      · revert he
        split
        · intro he
          rename_i hm
          exact hm
        · intro he
          exact absurd he (by simp [Except.map])
  · intro ⟨hst, hm⟩
    rw [if_neg (by simpa using hst), hm]
    exact ⟨_, rfl⟩

theorem buildTypeDeclMap_error_of_bad :
    ∀ (lines : List String) (n : ℕ),
      (∃ l ∈ lines, startsWithLC "::".data (trimLC l.data) ∧
        matchTypeDecl (trimLC l.data) = none) →
      ∃ e, buildTypeDeclMap lines n = .error e := by
  intro lines
  induction lines with
  | nil => intro n h; simp at h
  | cons l rest ih =>
    intro n h
    rw [buildTypeDeclMap]
    rcases h with ⟨l₂, hmem, hbad⟩
    rcases List.mem_cons.mp hmem with heq | hmem₂
    · subst heq
      obtain ⟨e, he⟩ := (parse_embedded_type_error_iff l₂ n).mpr hbad
      rw [he]
      exact ⟨e, rfl⟩
    · cases hpe : parse_embedded_type l n with
      | error e => exact ⟨e, by simp [bind, Except.bind, hpe]⟩
      | ok oe =>
        obtain ⟨e, he⟩ := ih (n + 1) ⟨l₂, hmem₂, hbad⟩
        rw [he]
        exact ⟨e, by simp [bind, Except.bind, hpe]⟩

theorem buildTypeDeclMap_ok_of_good :
    ∀ (lines : List String) (n : ℕ),
      (∀ l ∈ lines, startsWithLC "::".data (trimLC l.data) →
        matchTypeDecl (trimLC l.data) ≠ none) →
      ∃ m, buildTypeDeclMap lines n = .ok m := by
  intro lines
  induction lines with
  | nil => intro n _; exact ⟨[], rfl⟩
  | cons l rest ih =>
    intro n h
    cases hpe : parse_embedded_type l n with
    | error e =>
      exfalso
      obtain ⟨hst, hm⟩ := (parse_embedded_type_error_iff l n).mp ⟨e, hpe⟩
      exact h l (List.mem_cons_self l rest) hst hm
    | ok oe =>
      obtain ⟨m, hm⟩ := ih (n + 1) (fun l₂ hm₂ => h l₂ (List.mem_cons_of_mem _ hm₂))
      cases oe with
      | none => exact ⟨m, by rw [buildTypeDeclMap]; simp [bind, Except.bind, hpe, hm]⟩
      | some emb =>
        exact ⟨(n, emb) :: m, by rw [buildTypeDeclMap]; simp [bind, Except.bind, hpe, hm]⟩

/-- C8: once the frontmatter has parsed, a body line that (after trimming)
begins with `::` but does not match the full type-declaration shape makes the
whole parse fail with a single error carrying the file path; and when no such
line exists, parsing always completes — a malformed trait annotation,
wikilink or tag can never fail the parse, because the trait/reference/tag
scanners are total and simply do not recognize unmatched patterns. -/
theorem C8_hard_and_soft_failures (content relativePath : String)
    (fm : Option Frontmatter)
    (hfm : parse_frontmatter content = .ok fm) :
    ((∃ l ∈ rustLines (documentBody content fm),
        startsWithLC "::".data (trimLC l.data) ∧ matchTypeDecl (trimLC l.data) = none) →
      ∃ e, parse_document content relativePath = .error e ∧ e.path = relativePath) ∧
    ((∀ l ∈ rustLines (documentBody content fm),
        startsWithLC "::".data (trimLC l.data) → matchTypeDecl (trimLC l.data) ≠ none) →
      ∃ d, parse_document content relativePath = .ok d) := by
  constructor
  · intro hbad
    obtain ⟨e, he⟩ := buildTypeDeclMap_error_of_bad _ (contentStartLine fm) hbad
    refine ⟨{ path := relativePath
              msg := "Invalid type declaration in " ++ relativePath }, ?_, rfl⟩
    simp only [parse_document, hfm, he]
  · intro hgood
    obtain ⟨m, hm⟩ := buildTypeDeclMap_ok_of_good _ (contentStartLine fm) hgood
    exact ⟨_, by simp only [parse_document, hfm, hm]; rfl⟩

/-- C8 (witness): the theorem applied concretely — `::bad syntax` in the body
makes the parse of `bad.md` fail with an error naming `bad.md`, while a
document whose body is full of malformed traits, wikilinks and tags
(`@ ,  [[unclosed, #1notag`) parses successfully. -/
theorem C8_witness :
    (∃ e, parse_document "x\n::bad syntax\ny" "bad.md" = .error e ∧
      e.path = "bad.md") ∧
    (∃ d, parse_document "@ ,  [[unclosed, #1notag\n@()" "soft.md" = .ok d) := by
  constructor
  · exact (C8_hard_and_soft_failures "x\n::bad syntax\ny" "bad.md" none rfl).1
      ⟨"::bad syntax", by decide, by decide, by decide⟩
  · exact (C8_hard_and_soft_failures "@ ,  [[unclosed, #1notag\n@()" "soft.md" none rfl).2
      (by decide)

/-! ## Structure of the extracted headings -/

theorem segmentLineFuel_no_heading :
    ∀ (fuel : ℕ) (l : List Char), ∀ e ∈ segmentLineFuel fuel l, isHeadingEvt e = false := by
  intro fuel
  induction fuel with
  | zero => intro l e he; simp [segmentLineFuel] at he
  | succ f ih =>
    intro l e he
    rw [segmentLineFuel] at he
    split at he
    · simp only [] at he
      split at he
      all_goals
        simp only [List.mem_append, List.mem_singleton] at he
        rcases he with (h | h) | h
        · revert h
          split
          · intro h; simp at h
          · intro h; rw [List.mem_singleton.mp h]; rfl
        · rw [h]; rfl
        · exact ih _ e h
    · revert he
      split
      · intro h; simp at h
      · intro h; rw [List.mem_singleton.mp h]; rfl

theorem segmentLine_no_heading (l : List Char) :
    ∀ e ∈ segmentLine l, isHeadingEvt e = false :=
  segmentLineFuel_no_heading _ l

theorem atxHeading_level_bounds {l : List Char} {lvl : ℕ} {txt : List Char}
    (h : atxHeading l = some (lvl, txt)) : 1 ≤ lvl ∧ lvl ≤ 6 := by
  rw [atxHeading] at h
  split at h
  · exact absurd h (by simp)
  · simp only [] at h
    split at h
    · exact absurd h (by simp)
    · rename_i hb
      push_neg at hb
      split at h
      · cases h
        omega
      · split at h
        · cases h
          omega
        · exact absurd h (by simp)

theorem lineEvents_cases (fence : Bool) (ln : ℕ) (line : String) :
    (∀ e ∈ (lineEvents fence ln line).2, isHeadingEvt e = false) ∨
    (∃ lvl seg, 1 ≤ lvl ∧ lvl ≤ 6 ∧ (∀ e ∈ seg, isHeadingEvt e = false) ∧
      (lineEvents fence ln line).2 = .startHeading lvl ln :: (seg ++ [.endHeading])) := by
  rw [lineEvents]
  by_cases hf : fence
  · rw [if_pos hf]
    by_cases hfl : isFenceLine line.data
    · rw [if_pos hfl]
      exact Or.inl (by intro e he; rw [List.mem_singleton.mp he]; rfl)
    · rw [if_neg hfl]
      exact Or.inl (by intro e he; rw [List.mem_singleton.mp he]; rfl)
  · rw [if_neg hf]
    by_cases hfl : isFenceLine line.data
    · rw [if_pos hfl]
      exact Or.inl (by intro e he; rw [List.mem_singleton.mp he]; rfl)
    · rw [if_neg hfl]
      cases hatx : atxHeading line.data with
      | none =>
        exact Or.inl (by intro e he; exact segmentLine_no_heading _ e he)
      | some p =>
        obtain ⟨lvl, txt⟩ := p
        obtain ⟨h₁, h₂⟩ := atxHeading_level_bounds hatx
        refine Or.inr ⟨lvl, segmentLine txt, h₁, h₂, segmentLine_no_heading txt, ?_⟩
        simp

theorem extractHeadingsGo_neutral :
    ∀ (evs rest : List MdEvent) (txt : List Char),
      (∀ e ∈ evs, isHeadingEvt e = false) →
      extractHeadingsGo (evs ++ rest) none txt = extractHeadingsGo rest none txt := by
  intro evs
  induction evs with
  | nil => intro rest txt _; rfl
  | cons e evs₂ ih =>
    intro rest txt hne
    have he := hne e (List.mem_cons_self e evs₂)
    have hrest : ∀ e₂ ∈ evs₂, isHeadingEvt e₂ = false :=
      fun e₂ h₂ => hne e₂ (List.mem_cons_of_mem _ h₂)
    cases e with
    | startHeading lvl ln => simp [isHeadingEvt] at he
    | endHeading => simp [isHeadingEvt] at he
    | text s =>
      rw [List.cons_append,
        show ∀ X, extractHeadingsGo (.text s :: X) none txt
          = extractHeadingsGo X none txt from fun X => rfl]
      exact ih rest txt hrest
    | code s =>
      rw [List.cons_append,
        show ∀ X, extractHeadingsGo (.code s :: X) none txt
          = extractHeadingsGo X none txt from fun X => rfl]
      exact ih rest txt hrest
    | startCodeBlock =>
      rw [List.cons_append,
        show ∀ X, extractHeadingsGo (.startCodeBlock :: X) none txt
          = extractHeadingsGo X none txt from fun X => rfl]
      exact ih rest txt hrest
    | endCodeBlock =>
      rw [List.cons_append,
        show ∀ X, extractHeadingsGo (.endCodeBlock :: X) none txt
          = extractHeadingsGo X none txt from fun X => rfl]
      exact ih rest txt hrest

theorem extractHeadingsGo_in_heading :
    ∀ (seg rest : List MdEvent) (lvl ln : ℕ) (acc : List Char),
      (∀ e ∈ seg, isHeadingEvt e = false) →
      extractHeadingsGo (seg ++ .endHeading :: rest) (some (lvl, ln)) acc =
        (if (trimLC (acc ++ segText seg)).isEmpty then []
         else [{ level := lvl, text := ⟨trimLC (acc ++ segText seg)⟩, line := ln }]) ++
          extractHeadingsGo rest none [] := by
  intro seg
  induction seg with
  | nil =>
    intro rest lvl ln acc _
    rw [List.nil_append,
      show extractHeadingsGo (.endHeading :: rest) (some (lvl, ln)) acc
        = if (trimLC acc).isEmpty then extractHeadingsGo rest none []
          else { level := lvl, text := ⟨trimLC acc⟩, line := ln } ::
            extractHeadingsGo rest none [] from rfl]
    simp only [segText, List.append_nil]
    split
    · rfl
    · rfl
  | cons e seg₂ ih =>
    intro rest lvl ln acc hne
    have he := hne e (List.mem_cons_self e seg₂)
    have hrest : ∀ e₂ ∈ seg₂, isHeadingEvt e₂ = false :=
      fun e₂ h₂ => hne e₂ (List.mem_cons_of_mem _ h₂)
    cases e with
    | startHeading l₂ n₂ => simp [isHeadingEvt] at he
    | endHeading => simp [isHeadingEvt] at he
    | text s =>
      rw [List.cons_append,
        show ∀ X, extractHeadingsGo (.text s :: X) (some (lvl, ln)) acc
          = extractHeadingsGo X (some (lvl, ln)) (acc ++ s.data) from fun X => rfl]
      rw [ih rest lvl ln (acc ++ s.data) hrest]
      rw [show segText (.text s :: seg₂) = s.data ++ segText seg₂ from rfl]
      rw [List.append_assoc]
    | code s =>
      rw [List.cons_append,
        show ∀ X, extractHeadingsGo (.code s :: X) (some (lvl, ln)) acc
          = extractHeadingsGo X (some (lvl, ln)) acc from fun X => rfl]
      rw [ih rest lvl ln acc hrest]
      rfl
    | startCodeBlock =>
      rw [List.cons_append,
        show ∀ X, extractHeadingsGo (.startCodeBlock :: X) (some (lvl, ln)) acc
          = extractHeadingsGo X (some (lvl, ln)) acc from fun X => rfl]
      rw [ih rest lvl ln acc hrest]
      rfl
    | endCodeBlock =>
      rw [List.cons_append,
        show ∀ X, extractHeadingsGo (.endCodeBlock :: X) (some (lvl, ln)) acc
          = extractHeadingsGo X (some (lvl, ln)) acc from fun X => rfl]
      rw [ih rest lvl ln acc hrest]
      rfl

theorem headings_from_lines :
    ∀ (lines : List String) (fence : Bool) (ln : ℕ),
      (∀ h ∈ extractHeadingsGo (mdEventsGo lines fence ln) none [],
        ln ≤ h.line ∧ 1 ≤ h.level ∧ h.level ≤ 6) ∧
      (extractHeadingsGo (mdEventsGo lines fence ln) none []).Pairwise
        (fun a b => a.line < b.line) := by
  intro lines
  induction lines with
  | nil =>
    intro fence ln
    rw [mdEventsGo]
    split
    · rw [show ([MdEvent.endCodeBlock] : List MdEvent)
        = [MdEvent.endCodeBlock] ++ [] from rfl,
        extractHeadingsGo_neutral _ _ _ (by intro e he; rw [List.mem_singleton.mp he]; rfl)]
      exact ⟨by intro h hh; simp [extractHeadingsGo] at hh, by simp [extractHeadingsGo]⟩
    · exact ⟨by intro h hh; simp [extractHeadingsGo] at hh, by simp [extractHeadingsGo]⟩
  | cons l rest ih =>
    intro fence ln
    have hstep : mdEventsGo (l :: rest) fence ln
        = (lineEvents fence ln l).2 ++ mdEventsGo rest (lineEvents fence ln l).1 (ln + 1) := by
      rw [mdEventsGo]
    rw [hstep]
    rcases lineEvents_cases fence ln l with hneu | ⟨lvl, seg, h₁, h₂, hseg, hevs⟩
    · rw [extractHeadingsGo_neutral _ _ _ hneu]
      obtain ⟨hb, hp⟩ := ih (lineEvents fence ln l).1 (ln + 1)
      refine ⟨?_, hp⟩
      intro h hh
      obtain ⟨hl, hlv⟩ := hb h hh
      exact ⟨by omega, hlv⟩
    · rw [hevs]
      rw [show (MdEvent.startHeading lvl ln :: (seg ++ [MdEvent.endHeading])) ++
          mdEventsGo rest (lineEvents fence ln l).1 (ln + 1)
        = MdEvent.startHeading lvl ln ::
          (seg ++ MdEvent.endHeading ::
            mdEventsGo rest (lineEvents fence ln l).1 (ln + 1)) by simp]
      rw [show ∀ X txt, extractHeadingsGo (MdEvent.startHeading lvl ln :: X) none txt
        = extractHeadingsGo X (some (lvl, ln)) [] from fun X txt => rfl]
      rw [extractHeadingsGo_in_heading seg _ lvl ln [] hseg]
      obtain ⟨hb, hp⟩ := ih (lineEvents fence ln l).1 (ln + 1)
      constructor
      · intro h hh
        rcases List.mem_append.mp hh with hm | hm
        · split at hm
          · simp at hm
          · rw [List.mem_singleton.mp hm]
            exact ⟨le_refl ln, h₁, h₂⟩
        · obtain ⟨hl, hlv⟩ := hb h hm
          exact ⟨by omega, hlv⟩
      · apply List.pairwise_append.mpr
        refine ⟨?_, hp, ?_⟩
        · split
          · simp
          · simp only [List.pairwise_cons]
            exact ⟨by intro b hb₂; simp at hb₂, List.Pairwise.nil⟩
        · intro a ha b hbm
          have hla : a.line = ln := by
            revert ha
            split
            · intro ha; simp at ha
            · intro ha
              rw [List.mem_singleton.mp ha]
          obtain ⟨hl, -⟩ := hb b hbm
          omega

/-- Structure of `extract_headings`: every heading's line is at least the
starting line, levels are between 1 and 6, and heading lines strictly
increase in order of appearance. -/
theorem extract_headings_struct (content : String) (startLn : ℕ) :
    (∀ h ∈ extract_headings content startLn,
      startLn ≤ h.line ∧ 1 ≤ h.level ∧ h.level ≤ 6) ∧
    (extract_headings content startLn).Pairwise (fun a b => a.line < b.line) :=
  headings_from_lines (rustLines content) false startLn

/-! ## `compute_line_ends` on already-sorted objects -/

theorem insertIdx_of_le (le : ℕ → ℕ → Bool) (x y : ℕ) (r : List ℕ) (h : le x y) :
    insertIdx le x (y :: r) = x :: y :: r := by
  rw [insertIdx, if_pos h]

theorem sortIdxBy_eq_self (le : ℕ → ℕ → Bool) :
    ∀ (l : List ℕ), List.Chain' (fun a b => le a b = true) l → sortIdxBy le l = l := by
  intro l
  induction l with
  | nil => intro _; rfl
  | cons x r ih =>
    intro hc
    rw [sortIdxBy, List.foldr_cons,
      show List.foldr (insertIdx le) [] r = sortIdxBy le r from rfl,
      ih (List.Chain'.tail hc)]
    cases r with
    | nil => rfl
    | cons y r₂ =>
      exact insertIdx_of_le le x y r₂ (List.chain'_cons.mp hc).1

theorem findIdx?_range_eq (n k : ℕ) :
    (List.range n).findIdx? (fun j => j = k) = if k < n then some k else none := by
  split
  · rename_i hk
    apply List.findIdx?_eq_some_iff_getElem.mpr
    refine ⟨by simpa using hk, by simp, ?_⟩
    intro j hj
    simp only [List.getElem_range, decide_eq_true_eq]
    omega
  · rename_i hk
    apply List.findIdx?_eq_none_iff.mpr
    intro x hx
    have hxr := List.mem_range.mp hx
    rw [decide_eq_false_iff_not]
    omega

theorem computeEndAt_sorted (starts : List ℕ)
    (hs : List.Chain' (· ≤ ·) starts) (k : ℕ) :
    computeEndAt starts k = (starts.get? (k + 1)).map (· - 1) := by
  have hchain : List.Chain' (fun a b => idxLe starts a b = true)
      (List.range starts.length) := by
    cases hn : starts.length with
    | zero => simp
    | succ m =>
      apply (List.chain'_range_succ _ m).mpr
      intro i hi
      have h₁ : starts.getD i 0 ≤ starts.getD (i + 1) 0 := by
        have := List.chain'_iff_get.mp hs i (by omega)
        have hgi : starts.getD i 0 = starts.get ⟨i, by omega⟩ := by
          rw [List.getD_eq_getElem?_getD, List.getElem?_eq_getElem (by omega)]
          rfl
        have hgi₂ : starts.getD (i + 1) 0 = starts.get ⟨i + 1, by omega⟩ := by
          rw [List.getD_eq_getElem?_getD, List.getElem?_eq_getElem (by omega)]
          rfl
        rw [hgi, hgi₂]
        exact this
      rw [idxLe, decide_eq_true_iff]
      rcases Nat.lt_or_ge (starts.getD i 0) (starts.getD (i + 1) 0) with h | h
      · exact Or.inl h
      · exact Or.inr ⟨le_antisymm h₁ h, by omega⟩
  rw [computeEndAt]
  simp only [sortIdxBy_eq_self _ _ hchain, findIdx?_range_eq]
  by_cases hk : k < starts.length
  · rw [if_pos hk]
    show (match (List.range starts.length).get? (k + 1) with
          | none => none
          | some j => (starts.get? j).map (· - 1)) = (starts.get? (k + 1)).map (· - 1)
    by_cases hk₂ : k + 1 < starts.length
    · rw [List.get?_range hk₂]
    · rw [show (List.range starts.length).get? (k + 1) = none from
        List.get?_eq_none.mpr (by simpa using hk₂)]
      rw [show starts.get? (k + 1) = none from List.get?_eq_none.mpr (by omega)]
      rfl
  · rw [if_neg hk]
    show (none : Option ℕ) = (starts.get? (k + 1)).map (· - 1)
    rw [show starts.get? (k + 1) = none from List.get?_eq_none.mpr (by omega)]
    rfl

theorem buildObjectsGo_map_line_start (fileId : String)
    (declMap : List (ℕ × EmbeddedType)) :
    ∀ (hs : List Heading) (stack used : List (String × ℕ)),
      (buildObjectsGo fileId declMap hs stack used).map (·.line_start) =
        hs.map (·.line) := by
  intro hs
  induction hs with
  | nil => intro stack used; rfl
  | cons h rest ih =>
    intro stack used
    rw [buildObjectsGo]
    split
    · simp only [List.map_cons, ih]
    · simp only [List.map_cons, ih]

theorem contentStartLine_pos (fm : Option Frontmatter) : 1 ≤ contentStartLine fm := by
  cases fm with
  | none => exact le_refl 1
  | some f => exact Nat.le_add_left 1 f.end_line

theorem objectsOf_starts_sorted (fileId : String) (fm : Option Frontmatter)
    (body : String) (startLn : ℕ) (declMap : List (ℕ × EmbeddedType))
    (h1 : 1 ≤ startLn) :
    List.Chain' (· ≤ ·) ((objectsOf fileId fm body startLn declMap).map (·.line_start)) := by
  rw [objectsOf, List.map_cons, buildObjectsGo_map_line_start]
  obtain ⟨hb, hp⟩ := extract_headings_struct body startLn
  have hchain : List.Chain' (fun a b => a.line < b.line)
      (extract_headings body startLn) := List.Pairwise.chain' hp
  rw [List.chain'_cons']
  constructor
  · intro y hy
    cases hh : extract_headings body startLn with
    | nil => rw [hh] at hy; simp at hy
    | cons h₀ hs₂ =>
      rw [hh] at hy
      simp only [List.map_cons, List.head?_cons] at hy
      have hyz : h₀.line = y := by simpa [Option.mem_def] using hy
      have hmem : h₀ ∈ extract_headings body startLn := by
        rw [hh]
        exact List.mem_cons_self _ _
      have hge := (hb h₀ hmem).1
      show (rootObjectOf fileId fm body).line_start ≤ y
      rw [show (rootObjectOf fileId fm body).line_start = 1 from rfl]
      omega
  · apply List.chain'_map_of_chain' (fun h : Heading => h.line)
    · intro a b hab
      exact le_of_lt hab
    · exact hchain

theorem chain'_le_get? : ∀ {l : List ℕ}, List.Chain' (· ≤ ·) l →
    ∀ i x y, l.get? i = some x → l.get? (i + 1) = some y → x ≤ y := by
  intro l
  induction l with
  | nil => intro _ i x y hx _; simp at hx
  | cons a r ih =>
    intro hc i x y hx hy
    cases r with
    | nil =>
      cases i with
      | zero => simp at hy
      | succ j => simp at hx
    | cons b r₂ =>
      cases i with
      | zero =>
        simp only [List.get?_cons_zero, Option.some.injEq] at hx
        simp only [List.get?_cons_succ, List.get?_cons_zero, Option.some.injEq] at hy
        subst hx; subst hy
        exact (List.chain'_cons.mp hc).1
      | succ j =>
        simp only [List.get?_cons_succ] at hx hy
        exact ih (List.chain'_cons.mp hc).2 j x y hx hy

theorem compute_line_ends_adjacent (objs : List ParsedObject)
    (hs : List.Chain' (· ≤ ·) (objs.map (·.line_start))) :
    ∀ i a, (compute_line_ends objs).get? i = some a →
      a.line_end = ((objs.get? (i + 1)).map (·.line_start)).map (· - 1) := by
  intro i a ha
  rw [compute_line_ends_get?] at ha
  cases ho : objs.get? i with
  | none => rw [ho] at ha; exact absurd ha (by simp)
  | some o =>
    rw [ho] at ha
    simp only [Option.map_some', Option.some.injEq] at ha
    rw [← ha]
    show computeEndAt (objs.map (·.line_start)) i = _
    rw [computeEndAt_sorted _ hs i, List.get?_map]

/-! ## Claim C3 — root object position and end-line computation -/

/-- C3 (counterexample): the claim says the root object always has an unset
end line.  But when a heading starts at line 1 (no frontmatter, heading on
the first line), the root and that heading share start line 1, and the
second pass gives the root the end line `1 - 1 = 0` — set, not unset. -/
theorem C3_counterexample :
    ∃ d root, parse_document "# A\nx" "d.md" = .ok d ∧
      d.objects.get? 0 = some root ∧
      root.line_end = some 0 ∧ root.line_end ≠ none :=
  ⟨_, _, rfl, rfl, rfl, by decide⟩

/-- C3 (amended): the root object is at index 0, with start line 1, no parent
and no heading; the object list is already sorted by start line, and each
object's end line is the next object's start line minus one (the last
object's end line is unset).  In particular the root's end line is unset
*unless* a heading starts at line 1, in which case the root's end line is 0.
-/
theorem C3_line_ends (content relativePath : String) (fm : Option Frontmatter)
    (declMap : List (ℕ × EmbeddedType)) (d : ParsedDocument)
    (hfm : parse_frontmatter content = .ok fm)
    (hmap : buildTypeDeclMap (rustLines (documentBody content fm))
      (contentStartLine fm) = .ok declMap)
    (hok : parse_document content relativePath = .ok d) :
    (∃ root, d.objects.get? 0 = some root ∧ root.id = stripDotMd relativePath ∧
      root.line_start = 1 ∧ root.parent_id = none ∧ root.heading = none) ∧
    (∀ i a b, d.objects.get? i = some a → d.objects.get? (i + 1) = some b →
      a.line_start ≤ b.line_start ∧ a.line_end = some (b.line_start - 1)) ∧
    (∀ i a, d.objects.get? i = some a → d.objects.get? (i + 1) = none →
      a.line_end = none) := by
  obtain ⟨-, hobjs, -, -⟩ := parse_document_ok_parts hfm hmap hok
  have hsorted := objectsOf_starts_sorted (stripDotMd relativePath) fm
    (documentBody content fm) (contentStartLine fm) declMap
    (contentStartLine_pos fm)
  have hadj := compute_line_ends_adjacent _ hsorted
  refine ⟨?_, ?_, ?_⟩
  · rw [hobjs, compute_line_ends_get?, objectsOf]
    exact ⟨_, rfl, rfl, rfl, rfl, rfl⟩
  · intro i a b ha hb
    rw [hobjs] at ha hb
    have hend := hadj i a ha
    rw [compute_line_ends_get?] at hb
    cases ho : (objectsOf (stripDotMd relativePath) fm (documentBody content fm)
        (contentStartLine fm) declMap).get? (i + 1) with
    | none => rw [ho] at hb; exact absurd hb (by simp)
    | some o₂ =>
      rw [ho] at hb hend
      simp only [Option.map_some', Option.some.injEq] at hb hend
      constructor
      · -- sortedness of adjacent starts
        rw [compute_line_ends_get?] at ha
        cases ho₁ : (objectsOf (stripDotMd relativePath) fm (documentBody content fm)
            (contentStartLine fm) declMap).get? i with
        | none => rw [ho₁] at ha; exact absurd ha (by simp)
        | some o₁ =>
          rw [ho₁] at ha
          simp only [Option.map_some', Option.some.injEq] at ha
          have hx : ((objectsOf (stripDotMd relativePath) fm (documentBody content fm)
              (contentStartLine fm) declMap).map (·.line_start)).get? i
              = some o₁.line_start := by
            rw [List.get?_map, ho₁]
            rfl
          have hy : ((objectsOf (stripDotMd relativePath) fm (documentBody content fm)
              (contentStartLine fm) declMap).map (·.line_start)).get? (i + 1)
              = some o₂.line_start := by
            rw [List.get?_map, ho]
            rfl
          have hle := chain'_le_get? hsorted i _ _ hx hy
          rw [← ha, ← hb]
          exact hle
      · rw [← hb]
        simpa using hend
  · intro i a ha hb
    rw [hobjs] at ha hb
    have hend := hadj i a ha
    rw [compute_line_ends_get?] at hb
    cases ho : (objectsOf (stripDotMd relativePath) fm (documentBody content fm)
        (contentStartLine fm) declMap).get? (i + 1) with
    | none =>
      rw [ho] at hend
      simpa using hend
    | some o₂ => rw [ho] at hb; exact absurd hb (by simp)


/-- C3 (witness): applying the amended theorem to `"x\n# A\n# B"` at path
`doc.md`: the root is at index 0 with start line 1, no parent and no heading;
starts are sorted with each end line one less than the next start; the last
object's end line is unset. -/
theorem C3_witness :
    ∃ d, parse_document "x\n# A\n# B" "doc.md" = .ok d ∧
      ((∃ root, d.objects.get? 0 = some root ∧ root.id = stripDotMd "doc.md" ∧
        root.line_start = 1 ∧ root.parent_id = none ∧ root.heading = none) ∧
      (∀ i a b, d.objects.get? i = some a → d.objects.get? (i + 1) = some b →
        a.line_start ≤ b.line_start ∧ a.line_end = some (b.line_start - 1)) ∧
      (∀ i a, d.objects.get? i = some a → d.objects.get? (i + 1) = none →
        a.line_end = none)) :=
  ⟨_, rfl, C3_line_ends "x\n# A\n# B" "doc.md" none [] _ rfl rfl rfl⟩


/-! ## Claim C5 — trait and reference binding -/

theorem foldl_parent_sorted :
    ∀ (l : List ParsedObject) (a : ParsedObject),
      List.Pairwise (fun x y : ParsedObject => x.line_start ≤ y.line_start) (a :: l) →
      List.foldl (fun acc o =>
        match acc with
        | none => some o
        | some a => if a.line_start ≤ o.line_start then some o else some a) (some a) l
        = some (l.getLastD a)
  | [], _, _ => rfl
  | b :: r, a, hp => by
    have hab : a.line_start ≤ b.line_start :=
      (List.pairwise_cons.mp hp).1 b (List.mem_cons_self _ _)
    rw [List.foldl_cons]
    have hstep : (match some a with
        | none => some b
        | some a => if a.line_start ≤ b.line_start then some b else some a) = some b := by
      show (if a.line_start ≤ b.line_start then some b else some a) = some b
      rw [if_pos hab]
    rw [hstep, List.getLastD_cons]
    exact foldl_parent_sorted r b (List.pairwise_cons.mp hp).2

theorem filter_start_le_eq_takeWhile (L : ℕ) :
    ∀ (l : List ParsedObject),
      List.Pairwise (fun x y : ParsedObject => x.line_start ≤ y.line_start) l →
      l.filter (fun o => decide (o.line_start ≤ L))
        = l.takeWhile (fun o => decide (o.line_start ≤ L))
  | [], _ => rfl
  | a :: r, hp => by
    rw [List.filter_cons, List.takeWhile_cons]
    by_cases ha : a.line_start ≤ L
    · rw [if_pos (decide_eq_true ha), if_pos (decide_eq_true ha),
        filter_start_le_eq_takeWhile L r (List.pairwise_cons.mp hp).2]
    · rw [if_neg (by simpa using ha), if_neg (by simpa using ha)]
      apply List.filter_eq_nil_iff.mpr
      intro b hb
      have hle := (List.pairwise_cons.mp hp).1 b hb
      simp only [decide_eq_true_eq]
      omega

theorem get?_after_takeWhile (p : ParsedObject → Bool) :
    ∀ (l : List ParsedObject) (x : ParsedObject),
      l.get? (l.takeWhile p).length = some x → p x = false
  | [], x, h => by simp at h
  | a :: r, x, h => by
    rw [List.takeWhile_cons] at h
    by_cases hp : p a = true
    · rw [if_pos hp] at h
      simp only [List.length_cons, List.get?_cons_succ] at h
      exact get?_after_takeWhile p r x h
    · rw [if_neg hp] at h
      simp only [List.length_nil, List.get?_cons_zero, Option.some.injEq] at h
      rw [← h]
      exact Bool.eq_false_iff.mpr hp

theorem get?_getLastD : ∀ (cs : List ParsedObject) (c : ParsedObject),
    (c :: cs).get? cs.length = some (cs.getLastD c)
  | [], _ => rfl
  | b :: r, c => by
    show (c :: b :: r).get? (r.length + 1) = some ((b :: r).getLastD c)
    rw [List.get?_cons_succ, List.getLastD_cons]
    exact get?_getLastD r b

theorem takeWhile_get?_eq (p : ParsedObject → Bool) :
    ∀ (l : List ParsedObject) (i : ℕ) (x : ParsedObject),
      (l.takeWhile p).get? i = some x → l.get? i = some x
  | [], i, x, h => by simp at h
  | a :: r, i, x, h => by
    rw [List.takeWhile_cons] at h
    by_cases hp : p a = true
    · rw [if_pos hp] at h
      cases i with
      | zero => simpa using h
      | succ j =>
        rw [List.get?_cons_succ] at h ⊢
        exact takeWhile_get?_eq p r j x h
    · rw [if_neg hp] at h
      simp at h

theorem pairwise_start_le_get? {l : List ParsedObject}
    (hp : List.Pairwise (fun x y : ParsedObject => x.line_start ≤ y.line_start) l)
    {i j : ℕ} (hij : i < j) {x y : ParsedObject}
    (hx : l.get? i = some x) (hy : l.get? j = some y) :
    x.line_start ≤ y.line_start := by
  rw [List.get?_eq_some] at hx hy
  obtain ⟨hi, hx⟩ := hx
  obtain ⟨hj, hy⟩ := hy
  rw [← hx, ← hy]
  exact List.pairwise_iff_get.mp hp ⟨i, hi⟩ ⟨j, hj⟩ hij


theorem find_parent_spec (objects : List ParsedObject) (L : ℕ)
    (hs : List.Chain' (· ≤ ·) (objects.map (·.line_start)))
    (o₀ : ParsedObject) (h₀ : objects.get? 0 = some o₀) (h₀L : o₀.line_start ≤ L) :
    ∃ k o, objects.get? k = some o ∧
      find_parent_for_line objects L = o.id ∧
      o.line_start ≤ L ∧
      (∀ j o', objects.get? j = some o' → o'.line_start ≤ L →
        o'.line_start ≤ o.line_start ∧ j ≤ k) ∧
      (∀ o', objects.get? (k + 1) = some o' → L < o'.line_start) := by
  have hpw : List.Pairwise (fun x y : ParsedObject => x.line_start ≤ y.line_start)
      objects := List.pairwise_map.mp (List.chain'_iff_pairwise.mp hs)
  cases objects with
  | nil => exact absurd h₀ (by simp)
  | cons c rest =>
    simp only [List.get?_cons_zero, Option.some.injEq] at h₀
    subst h₀
    have hpc := List.pairwise_cons.mp hpw
    set p : ParsedObject → Bool := fun o => decide (o.line_start ≤ L) with hp
    set tw : List ParsedObject := rest.takeWhile p with htwdef
    have htwcons : (c :: rest).takeWhile p = c :: tw := by
      rw [List.takeWhile_cons, if_pos (by simpa [hp] using h₀L)]
    have hfilter : (c :: rest).filter p = c :: tw := by
      rw [filter_start_le_eq_takeWhile L _ hpw, htwcons]
    have hpwtw : List.Pairwise (fun x y : ParsedObject => x.line_start ≤ y.line_start)
        (c :: tw) :=
      List.Pairwise.sublist ((List.takeWhile_sublist p).cons₂ c) hpw
    refine ⟨tw.length, tw.getLastD c, ?_, ?_, ?_, ?_, ?_⟩
    · exact takeWhile_get?_eq p (c :: rest) tw.length (tw.getLastD c)
        (by rw [htwcons]; exact get?_getLastD tw c)
    · show (match ((c :: rest).filter p).foldl (fun acc o =>
          match acc with
          | none => some o
          | some a => if a.line_start ≤ o.line_start then some o else some a) none with
        | some o => o.id
        | none => ((((c :: rest).head?).map (·.id)).getD "")) = (tw.getLastD c).id
      rw [hfilter, List.foldl_cons]
      have hstep : (match (none : Option ParsedObject) with
          | none => some c
          | some a => if a.line_start ≤ c.line_start then some c else some a)
          = some c := rfl
      rw [hstep, foldl_parent_sorted tw c hpwtw]
    · have hmem : tw.getLastD c ∈ (c :: rest).takeWhile p := by
        rw [htwcons]
        exact List.get?_mem (get?_getLastD tw c)
      have := List.mem_takeWhile_imp hmem
      simpa [hp] using this
    · intro j o' hj hjL
      have hjle : j ≤ tw.length := by
        by_contra hlt
        push_neg at hlt
        have hjlen : j < (c :: rest).length := (List.get?_eq_some.mp hj).1
        have hklen : tw.length + 1 < (c :: rest).length := by omega
        obtain ⟨x, hx⟩ : ∃ x, (c :: rest).get? (tw.length + 1) = some x :=
          ⟨_, List.get?_eq_get hklen⟩
        have hfail : p x = false := by
          apply get?_after_takeWhile p (c :: rest) x
          rw [htwcons]
          simpa using hx
        have hLx : L < x.line_start := by
          have := hfail
          simp only [hp, decide_eq_false_iff_not] at this
          omega
        rcases Nat.lt_or_ge (tw.length + 1) j with hlt₂ | hge₂
        · have := pairwise_start_le_get? hpw hlt₂ hx hj
          omega
        · have hjeq : j = tw.length + 1 := by omega
          rw [hjeq] at hj
          rw [hj] at hx
          have hox : o' = x := Option.some.inj hx
          rw [hox] at hjL
          omega
      constructor
      · rcases Nat.lt_or_ge j tw.length with hlt | hge
        · exact pairwise_start_le_get? hpw hlt hj
            (takeWhile_get?_eq p (c :: rest) tw.length (tw.getLastD c)
              (by rw [htwcons]; exact get?_getLastD tw c))
        · have hjeq : j = tw.length := by omega
          rw [hjeq] at hj
          have hk := takeWhile_get?_eq p (c :: rest) tw.length (tw.getLastD c)
            (by rw [htwcons]; exact get?_getLastD tw c)
          rw [hj] at hk
          have hko : o' = tw.getLastD c := Option.some.inj hk
          rw [hko]
      · exact hjle
    · intro o' ho'
      have hfail : p o' = false := by
        apply get?_after_takeWhile p (c :: rest) o'
        rw [htwcons]
        simpa using ho'
      simp only [hp, decide_eq_false_iff_not] at hfail
      omega


theorem mem_traitsOf {objects : List ParsedObject} {bodyLines : List String}
    {startLn : ℕ} {t : ParsedTrait}
    (ht : t ∈ traitsOf objects bodyLines startLn) :
    t.parent_object_id = find_parent_for_line objects t.line ∧ startLn ≤ t.line := by
  rw [traitsOf, List.mem_filterMap] at ht
  obtain ⟨⟨idx, l⟩, _, hf⟩ := ht
  simp only [] at hf
  cases hpt : parse_trait l (startLn + idx) with
  | none => rw [hpt] at hf; exact absurd hf (by simp)
  | some tr =>
    rw [hpt] at hf
    simp only [Option.some.injEq] at hf
    rw [← hf]
    exact ⟨rfl, Nat.le_add_right _ _⟩

theorem extract_refs_line_ge (body : String) (startLn : ℕ) :
    ∀ ri ∈ extract_refs body startLn, startLn ≤ ri.line := by
  intro ri hri
  rw [extract_refs, List.mem_flatten] at hri
  obtain ⟨inner, hinner, hri⟩ := hri
  rw [List.mem_map] at hinner
  obtain ⟨⟨idx, l⟩, _, heq⟩ := hinner
  rw [← heq, List.mem_map] at hri
  obtain ⟨⟨tg, dd, sp, ep⟩, _, heq₂⟩ := hri
  rw [← heq₂]
  exact Nat.le_add_right _ _

theorem mem_refsOf {objects : List ParsedObject} {body : String}
    {startLn : ℕ} {r : ParsedRef}
    (hr : r ∈ refsOf objects body startLn) :
    r.source_id = find_parent_for_line objects r.line ∧ startLn ≤ r.line := by
  rw [refsOf, List.mem_map] at hr
  obtain ⟨ri, hmem, heq⟩ := hr
  rw [← heq]
  exact ⟨rfl, extract_refs_line_ge body startLn ri hmem⟩


theorem bound_parent_spec (objs : List ParsedObject) (L : ℕ)
    (hs : List.Chain' (· ≤ ·) (objs.map (·.line_start)))
    (o₀ : ParsedObject) (h₀ : objs.get? 0 = some o₀) (h₀L : o₀.line_start ≤ L) :
    ∃ k o, (compute_line_ends objs).get? k = some o ∧
      find_parent_for_line objs L = o.id ∧
      o.line_start ≤ L ∧
      (∀ j o', (compute_line_ends objs).get? j = some o' → o'.line_start ≤ L →
        o'.line_start ≤ o.line_start ∧ j ≤ k) ∧
      (o.line_end = none ∨ ∃ e, o.line_end = some e ∧ L ≤ e) := by
  obtain ⟨k, o, hko, hfind, hoL, hdom, hnext⟩ := find_parent_spec objs L hs o₀ h₀ h₀L
  refine ⟨k, { o with line_end := computeEndAt (objs.map (·.line_start)) k },
    ?_, ?_, ?_, ?_, ?_⟩
  · rw [compute_line_ends_get?, hko]
    rfl
  · exact hfind
  · exact hoL
  · intro j o' hj hjL
    rw [compute_line_ends_get?] at hj
    cases hq : objs.get? j with
    | none => rw [hq] at hj; exact absurd hj (by simp)
    | some q =>
      rw [hq] at hj
      simp only [Option.map_some', Option.some.injEq] at hj
      have hres := hdom j q hq (by rw [← hj] at hjL; exact hjL)
      rw [← hj]
      exact hres
  · show computeEndAt (objs.map (·.line_start)) k = none ∨
      ∃ e, computeEndAt (objs.map (·.line_start)) k = some e ∧ L ≤ e
    rw [computeEndAt_sorted _ hs k, List.get?_map]
    cases hq : objs.get? (k + 1) with
    | none => exact Or.inl rfl
    | some q =>
      right
      refine ⟨q.line_start - 1, rfl, ?_⟩
      have := hnext q hq
      omega


/-- C5 (counterexample): the claim asserts start lines are unique per object,
so no ties occur.  On `"# A\n[[t]]\n# B"` the root object and the first
section both start at line 1 — a tie, which the binder breaks towards the
later (section) object; moreover the bound reference sits exactly on the
section's end line, so its line lies in the closed range [start, end] but not
in the half-open range [start, end). -/
theorem C5_counterexample :
    ∃ d a b r, parse_document "# A\n[[t]]\n# B" "d.md" = .ok d ∧
      d.objects.get? 0 = some a ∧ d.objects.get? 1 = some b ∧
      a.id ≠ b.id ∧ a.line_start = b.line_start ∧
      d.refs.get? 0 = some r ∧ r.source_id = b.id ∧
      r.line = 2 ∧ b.line_end = some 2 ∧ ¬ r.line < 2 :=
  ⟨_, _, _, _, rfl, rfl, rfl, by decide, rfl, rfl, rfl, rfl, rfl, by decide⟩

/-- C5 (amended): every trait and every reference in the body is bound to an
object of the document whose start line is ≤ the trait's/reference's line and
is greatest such — ties between equal start lines being broken towards the
object latest in list order — and whose closed line range contains that line:
the bound object's end line is either unset or ≥ the line.  The root object
(start line 1) qualifies for every body line, so the binder always finds an
object; start lines are not unique in general. -/
theorem C5_binding (content relativePath : String) (fm : Option Frontmatter)
    (declMap : List (ℕ × EmbeddedType)) (d : ParsedDocument)
    (hfm : parse_frontmatter content = .ok fm)
    (hmap : buildTypeDeclMap (rustLines (documentBody content fm))
      (contentStartLine fm) = .ok declMap)
    (hok : parse_document content relativePath = .ok d) :
    (∀ t ∈ d.traits, ∃ k o, d.objects.get? k = some o ∧
      t.parent_object_id = o.id ∧ o.line_start ≤ t.line ∧
      (∀ j o', d.objects.get? j = some o' → o'.line_start ≤ t.line →
        o'.line_start ≤ o.line_start ∧ j ≤ k) ∧
      (o.line_end = none ∨ ∃ e, o.line_end = some e ∧ t.line ≤ e)) ∧
    (∀ r ∈ d.refs, ∃ k o, d.objects.get? k = some o ∧
      r.source_id = o.id ∧ o.line_start ≤ r.line ∧
      (∀ j o', d.objects.get? j = some o' → o'.line_start ≤ r.line →
        o'.line_start ≤ o.line_start ∧ j ≤ k) ∧
      (o.line_end = none ∨ ∃ e, o.line_end = some e ∧ r.line ≤ e)) := by
  obtain ⟨-, hobjs, htraits, hrefs⟩ := parse_document_ok_parts hfm hmap hok
  have hs := objectsOf_starts_sorted (stripDotMd relativePath) fm
    (documentBody content fm) (contentStartLine fm) declMap (contentStartLine_pos fm)
  constructor
  · intro t ht
    rw [htraits] at ht
    obtain ⟨hpar, hline⟩ := mem_traitsOf ht
    have h₀L : (rootObjectOf (stripDotMd relativePath) fm
        (documentBody content fm)).line_start ≤ t.line := by
      show 1 ≤ t.line
      have := contentStartLine_pos fm
      omega
    obtain ⟨k, o, hko, hfind, hoL, hdom, hend⟩ :=
      bound_parent_spec _ t.line hs _ rfl h₀L
    rw [hobjs]
    exact ⟨k, o, hko, hpar.trans hfind, hoL, hdom, hend⟩
  · intro r hr
    rw [hrefs] at hr
    obtain ⟨hsrc, hline⟩ := mem_refsOf hr
    have h₀L : (rootObjectOf (stripDotMd relativePath) fm
        (documentBody content fm)).line_start ≤ r.line := by
      show 1 ≤ r.line
      have := contentStartLine_pos fm
      omega
    obtain ⟨k, o, hko, hfind, hoL, hdom, hend⟩ :=
      bound_parent_spec _ r.line hs _ rfl h₀L
    rw [hobjs]
    exact ⟨k, o, hko, hsrc.trans hfind, hoL, hdom, hend⟩

/-- C5 (witness): applying the amended theorem to
`"intro\n# A\ntext [[x]]\n@todo(soon)\n# B"` at path `e.md`: every trait and
reference of the parsed document is bound to the object with the greatest
start line at most its own line, whose closed line range contains it. -/
theorem C5_witness :
    ∃ d, parse_document "intro\n# A\ntext [[x]]\n@todo(soon)\n# B" "e.md" = .ok d ∧
      ((∀ t ∈ d.traits, ∃ k o, d.objects.get? k = some o ∧
        t.parent_object_id = o.id ∧ o.line_start ≤ t.line ∧
        (∀ j o', d.objects.get? j = some o' → o'.line_start ≤ t.line →
          o'.line_start ≤ o.line_start ∧ j ≤ k) ∧
        (o.line_end = none ∨ ∃ e, o.line_end = some e ∧ t.line ≤ e)) ∧
      (∀ r ∈ d.refs, ∃ k o, d.objects.get? k = some o ∧
        r.source_id = o.id ∧ o.line_start ≤ r.line ∧
        (∀ j o', d.objects.get? j = some o' → o'.line_start ≤ r.line →
          o'.line_start ≤ o.line_start ∧ j ≤ k) ∧
        (o.line_end = none ∨ ∃ e, o.line_end = some e ∧ r.line ≤ e))) :=
  ⟨_, rfl, C5_binding "intro\n# A\ntext [[x]]\n@todo(soon)\n# B" "e.md" none [] _
    rfl rfl rfl⟩


/-! ## Claim C2 — parent assignment via the heading stack -/

theorem buildObjectsGo_cons_shape (fileId : String) (declMap : List (ℕ × EmbeddedType))
    (h : Heading) (rest : List Heading) (stack used : List (String × ℕ)) :
    ∃ obj, buildObjectsGo fileId declMap (h :: rest) stack used =
        obj :: buildObjectsGo fileId declMap rest
          ((pushedId fileId declMap used h, h.level) :: popStack stack h.level)
          (usedAfter declMap used h) ∧
      obj.id = pushedId fileId declMap used h ∧
      obj.heading_level = some h.level ∧
      obj.line_start = h.line ∧
      obj.parent_id = some ((popStack stack h.level).headD (fileId, 0)).1 := by
  rw [buildObjectsGo]
  cases hl : lookupLine declMap (h.line + 1) with
  | some emb =>
    simp only [pushedId, usedAfter, hl]
    exact ⟨_, rfl, rfl, rfl, rfl, rfl⟩
  | none =>
    simp only [pushedId, usedAfter, hl]
    exact ⟨_, rfl, rfl, rfl, rfl, rfl⟩

theorem buildObjectsGo_get?_shape (fileId : String) (declMap : List (ℕ × EmbeddedType)) :
    ∀ (hs : List Heading) (stack used : List (String × ℕ)) (i : ℕ) (h_i : Heading),
      hs.get? i = some h_i →
      ∃ obj, (buildObjectsGo fileId declMap hs stack used).get? i = some obj ∧
        obj.id = pushedId fileId declMap
          (stackUsedAfter fileId declMap (hs.take i) (stack, used)).2 h_i ∧
        obj.heading_level = some h_i.level ∧
        obj.line_start = h_i.line ∧
        obj.parent_id = some ((popStack
          (stackUsedAfter fileId declMap (hs.take i) (stack, used)).1 h_i.level).headD
          (fileId, 0)).1
  | [], _, _, i, _, hi => absurd hi (by simp)
  | h :: rest, stack, used, 0, h_i, hi => by
    simp only [List.get?_cons_zero, Option.some.injEq] at hi
    subst hi
    obtain ⟨obj, heq, hid, hlv, hls, hpar⟩ :=
      buildObjectsGo_cons_shape fileId declMap h rest stack used
    exact ⟨obj, by rw [heq]; rfl, hid, hlv, hls, hpar⟩
  | h :: rest, stack, used, i + 1, h_i, hi => by
    rw [List.get?_cons_succ] at hi
    obtain ⟨obj0, heq, -, -, -, -⟩ :=
      buildObjectsGo_cons_shape fileId declMap h rest stack used
    obtain ⟨obj, hobj, hid, hlv, hls, hpar⟩ := buildObjectsGo_get?_shape fileId declMap rest
      ((pushedId fileId declMap used h, h.level) :: popStack stack h.level)
      (usedAfter declMap used h) i h_i hi
    refine ⟨obj, ?_, ?_, hlv, hls, ?_⟩
    · rw [heq, List.get?_cons_succ]
      exact hobj
    · rw [List.take_succ_cons]
      show obj.id = pushedId fileId declMap
        (stackUsedAfter fileId declMap (h :: rest.take i) (stack, used)).2 h_i
      rw [stackUsedAfter]
      exact hid
    · rw [List.take_succ_cons]
      show obj.parent_id = some ((popStack
        (stackUsedAfter fileId declMap (h :: rest.take i) (stack, used)).1 h_i.level).headD
        (fileId, 0)).1
      rw [stackUsedAfter]
      exact hpar


theorem popStack_cons_cons (x y : String × ℕ) (r : List (String × ℕ)) (lvl : ℕ) :
    popStack (x :: y :: r) lvl = if lvl ≤ x.2 then popStack (y :: r) lvl
      else x :: y :: r := rfl

theorem popStack_append_root (fid : String) (lvl : ℕ) :
    ∀ (entries : List (String × ℕ)),
      popStack (entries ++ [(fid, 0)]) lvl =
        entries.dropWhile (fun e => decide (lvl ≤ e.2)) ++ [(fid, 0)]
  | [] => rfl
  | e :: rest => by
    obtain ⟨y, r, hyr⟩ : ∃ y r, rest ++ [(fid, 0)] = y :: r := by
      cases rest with
      | nil => exact ⟨(fid, 0), [], rfl⟩
      | cons a b => exact ⟨a, b ++ [(fid, 0)], List.cons_append a b [(fid, 0)]⟩
    show popStack (e :: (rest ++ [(fid, 0)])) lvl = _
    rw [hyr, popStack_cons_cons, List.dropWhile_cons, ← hyr]
    by_cases hle : lvl ≤ e.2
    · rw [if_pos hle, if_pos (decide_eq_true hle)]
      exact popStack_append_root fid lvl rest
    · rw [if_neg hle, if_neg (by simpa using hle)]
      exact (List.cons_append _ _ _).symm

theorem dropWhile_drop_spec {α : Type} (p : α → Bool) :
    ∀ l : List α, ∃ n, l.dropWhile p = l.drop n ∧ n ≤ l.length ∧
      (∀ s x, s < n → l.get? s = some x → p x = true) ∧
      (∀ x, (l.dropWhile p).get? 0 = some x → p x = false)
  | [] => ⟨0, rfl, le_refl 0, by omega, by simp⟩
  | a :: t => by
    by_cases hp : p a = true
    · obtain ⟨n, h1, h2, h3, h4⟩ := dropWhile_drop_spec p t
      refine ⟨n + 1, ?_, by simpa using h2, ?_, ?_⟩
      · rw [List.dropWhile_cons, if_pos hp, List.drop_succ_cons]
        exact h1
      · intro s x hs hx
        cases s with
        | zero =>
          rw [List.get?_cons_zero] at hx
          rw [← Option.some.inj hx]
          exact hp
        | succ s₂ =>
          rw [List.get?_cons_succ] at hx
          exact h3 s₂ x (by omega) hx
      · intro x hx
        rw [List.dropWhile_cons, if_pos hp] at hx
        exact h4 x hx
    · refine ⟨0, ?_, Nat.zero_le _, by omega, ?_⟩
      · rw [List.dropWhile_cons, if_neg hp, List.drop_zero]
      · intro x hx
        rw [List.dropWhile_cons, if_neg hp, List.get?_cons_zero] at hx
        rw [← Option.some.inj hx]
        exact Bool.eq_false_iff.mpr hp

theorem eq_take_append_last {α : Type} (l : List α) (n : ℕ) (x : α)
    (hlen : l.length = n + 1) (hx : l.get? n = some x) :
    l = l.take n ++ [x] := by
  have hdrop : l.drop n = [x] := by
    have hlen₂ : (l.drop n).length = 1 := by
      rw [List.length_drop, hlen]
      omega
    have hget : (l.drop n).get? 0 = some x := by
      rw [List.get?_drop]
      simpa using hx
    cases hd : l.drop n with
    | nil => rw [hd] at hlen₂; simp at hlen₂
    | cons a t =>
      rw [hd] at hlen₂ hget
      simp only [List.length_cons] at hlen₂
      have ht : t = [] := List.length_eq_zero.mp (by omega)
      rw [ht]
      rw [List.get?_cons_zero] at hget
      rw [Option.some.inj hget]
  conv_lhs => rw [← List.take_append_drop n l]
  rw [hdrop]

theorem stackUsedAfter_append (fileId : String) (declMap : List (ℕ × EmbeddedType)) :
    ∀ (l₁ l₂ : List Heading) (su : List (String × ℕ) × List (String × ℕ)),
      stackUsedAfter fileId declMap (l₁ ++ l₂) su =
        stackUsedAfter fileId declMap l₂ (stackUsedAfter fileId declMap l₁ su)
  | [], _, _ => rfl
  | h :: r, l₂, su => by
    rw [List.cons_append, stackUsedAfter, stackUsedAfter]
    exact stackUsedAfter_append fileId declMap r l₂ _


theorem stackInv_step (objs : List ParsedObject) (hs : List Heading) (fileId : String)
    (i : ℕ) (S : List (String × ℕ)) (h_i : Heading) (obj_i : ParsedObject)
    (hinv : StackInv objs hs fileId i S)
    (hi : hs.get? i = some h_i)
    (hobj : objs.get? i = some obj_i) :
    StackInv objs hs fileId (i + 1)
      ((obj_i.id, h_i.level) :: popStack S h_i.level) := by
  obtain ⟨idxs, hlen, hroot, h3, h4, h5, h6⟩ := hinv
  have hS : S = S.take idxs.length ++ [(fileId, 0)] :=
    eq_take_append_last S idxs.length (fileId, 0) hlen hroot
  have hentlen : (S.take idxs.length).length = idxs.length := by
    rw [List.length_take, hlen]
    omega
  obtain ⟨dcnt, hdw, hdle, hdropped, hsurv⟩ :=
    dropWhile_drop_spec (fun e => decide (h_i.level ≤ e.2)) (S.take idxs.length)
  have hpop : popStack S h_i.level = (S.take idxs.length).drop dcnt ++ [(fileId, 0)] := by
    conv_lhs => rw [hS]
    rw [popStack_append_root, hdw]
  rw [hpop]
  rw [hentlen] at hdle
  -- entry access below the root
  have hentget : ∀ s, s < idxs.length → (S.take idxs.length).get? s = S.get? s :=
    fun s hs₂ => List.get?_take hs₂
  have hdropget : ∀ s₂, ((S.take idxs.length).drop dcnt).get? s₂
      = S.get? (dcnt + s₂) ∨ idxs.length ≤ dcnt + s₂ := by
    intro s₂
    by_cases hlt : dcnt + s₂ < idxs.length
    · left
      rw [List.get?_drop, hentget _ hlt]
    · right
      omega
  refine ⟨i :: idxs.drop dcnt, ?_, ?_, ?_, ?_, ?_, ?_⟩
  · show (((S.take idxs.length).drop dcnt ++ [(fileId, 0)]).length + 1)
      = ((idxs.drop dcnt).length + 1) + 1
    rw [List.length_append, List.length_drop, List.length_drop, hentlen]
    rfl
  · show (((S.take idxs.length).drop dcnt ++ [(fileId, 0)]).get?
      ((idxs.drop dcnt).length)) = some (fileId, 0)
    have hlens : ((S.take idxs.length).drop dcnt).length = (idxs.drop dcnt).length := by
      rw [List.length_drop, List.length_drop, hentlen]
    rw [List.get?_append_right (le_of_eq hlens), ← hlens, Nat.sub_self]
    rfl
  · intro s j hsj
    cases s with
    | zero =>
      simp only [List.get?_cons_zero, Option.some.injEq] at hsj
      rw [← hsj]
      exact ⟨Nat.lt_succ_self i, obj_i, h_i, hobj, hi, rfl⟩
    | succ s₂ =>
      rw [List.get?_cons_succ, List.get?_drop] at hsj
      obtain ⟨hji, obj, h_j, hobjj, hhj, hSg⟩ := h3 (dcnt + s₂) j hsj
      refine ⟨by omega, obj, h_j, hobjj, hhj, ?_⟩
      have hlt : dcnt + s₂ < idxs.length := (List.get?_eq_some.mp hsj).1
      rw [List.get?_cons_succ,
        List.get?_append (by rw [List.length_drop, hentlen]; omega),
        List.get?_drop, hentget _ hlt]
      exact hSg
  · intro s s' j j' hss hsj hsj'
    cases s with
    | zero =>
      simp only [List.get?_cons_zero, Option.some.injEq] at hsj
      obtain ⟨s₂', rfl⟩ : ∃ s₂', s' = s₂' + 1 := ⟨s' - 1, by omega⟩
      rw [List.get?_cons_succ, List.get?_drop] at hsj'
      have := (h3 (dcnt + s₂') j' hsj').1
      omega
    | succ s₂ =>
      obtain ⟨s₂', rfl⟩ : ∃ s₂', s' = s₂' + 1 := ⟨s' - 1, by omega⟩
      rw [List.get?_cons_succ, List.get?_drop] at hsj hsj'
      exact h4 (dcnt + s₂) (dcnt + s₂') j j' (by omega) hsj hsj'
  · intro s s' j j' h_j h_j' hss hsj hsj' hhj hhj'
    have survLevel : ∀ s₂ k h_k, (idxs.drop dcnt).get? s₂ = some k →
        hs.get? k = some h_k → h_k.level < h_i.level := by
      intro s₂ k h_k hk hhk
      rw [List.get?_drop] at hk
      have hdlen : dcnt < idxs.length := by
        have := (List.get?_eq_some.mp hk).1
        omega
      obtain ⟨k₀, hk₀⟩ : ∃ k₀, idxs.get? dcnt = some k₀ :=
        ⟨_, List.get?_eq_get (by omega)⟩
      obtain ⟨hk₀i, obj₀, h_k₀, hobj₀, hhk₀, hS₀⟩ := h3 dcnt k₀ hk₀
      have hhead : ((S.take idxs.length).dropWhile
          (fun e => decide (h_i.level ≤ e.2))).get? 0 = some (obj₀.id, h_k₀.level) := by
        rw [hdw, List.get?_drop, Nat.add_zero, hentget _ hdlen]
        exact hS₀
      have hfalse := hsurv _ hhead
      simp only [decide_eq_false_iff_not, not_le] at hfalse
      cases s₂ with
      | zero =>
        rw [Nat.add_zero] at hk
        rw [hk] at hk₀
        have : k₀ = k := (Option.some.inj hk₀).symm
        rw [this] at hhk₀
        rw [hhk₀] at hhk
        rw [← Option.some.inj hhk]
        exact hfalse
      | succ s₃ =>
        have := h5 dcnt (dcnt + (s₃ + 1)) k₀ k h_k₀ h_k (by omega) hk₀ hk hhk₀ hhk
        omega
    cases s with
    | zero =>
      simp only [List.get?_cons_zero, Option.some.injEq] at hsj
      rw [← hsj] at hhj
      rw [hi] at hhj
      have hji : h_j = h_i := (Option.some.inj hhj).symm
      obtain ⟨s₂', rfl⟩ : ∃ s₂', s' = s₂' + 1 := ⟨s' - 1, by omega⟩
      rw [List.get?_cons_succ] at hsj'
      rw [hji]
      exact survLevel s₂' j' h_j' hsj' hhj'
    | succ s₂ =>
      obtain ⟨s₂', rfl⟩ : ∃ s₂', s' = s₂' + 1 := ⟨s' - 1, by omega⟩
      rw [List.get?_cons_succ, List.get?_drop] at hsj hsj'
      exact h5 (dcnt + s₂) (dcnt + s₂') j j' h_j h_j' (by omega) hsj hsj' hhj hhj'
  · intro m h_m hm hhm hnotmem
    have hmi : m < i := by
      rcases Nat.lt_or_ge m i with h | h
      · exact h
      · exfalso
        have : m = i := by omega
        exact hnotmem (by rw [this]; exact List.mem_cons_self _ _)
    have hne : ¬ m ∈ idxs.drop dcnt := fun hmem =>
      hnotmem (List.mem_cons_of_mem _ hmem)
    by_cases hmem : m ∈ idxs
    · obtain ⟨s, hsm⟩ := List.mem_iff_get?.mp hmem
      by_cases hsd : dcnt ≤ s
      · exfalso
        apply hne
        apply List.mem_iff_get?.mpr
        refine ⟨s - dcnt, ?_⟩
        rw [List.get?_drop]
        rw [show dcnt + (s - dcnt) = s by omega]
        exact hsm
      · push_neg at hsd
        obtain ⟨hmi₂, obj, h_m₂, hobjm, hhm₂, hSm⟩ := h3 s m hsm
        have hm₂ : h_m₂ = h_m := by
          rw [hhm₂] at hhm
          exact Option.some.inj hhm
        have hslen : s < idxs.length := by
          have := (List.get?_eq_some.mp hsm).1
          omega
        have hpm := hdropped s (obj.id, h_m₂.level) hsd
          (by rw [hentget _ hslen]; exact hSm)
        simp only [decide_eq_true_eq] at hpm
        refine ⟨i, h_i, List.mem_cons_self _ _, hmi, hi, ?_⟩
        rw [← hm₂]
        exact hpm
    · obtain ⟨k, h_k, hkmem, hmk, hhk, hlev⟩ := h6 m h_m hmi hhm hmem
      obtain ⟨s, hsk⟩ := List.mem_iff_get?.mp hkmem
      by_cases hsd : dcnt ≤ s
      · refine ⟨k, h_k, ?_, hmk, hhk, hlev⟩
        apply List.mem_cons_of_mem
        apply List.mem_iff_get?.mpr
        refine ⟨s - dcnt, ?_⟩
        rw [List.get?_drop, show dcnt + (s - dcnt) = s by omega]
        exact hsk
      · push_neg at hsd
        obtain ⟨hki, obj, h_k₂, hobjk, hhk₂, hSk⟩ := h3 s k hsk
        have hk₂ : h_k₂ = h_k := by
          rw [hhk₂] at hhk
          exact Option.some.inj hhk
        have hslen : s < idxs.length := by
          have := (List.get?_eq_some.mp hsk).1
          omega
        have hpk := hdropped s (obj.id, h_k₂.level) hsd
          (by rw [hentget _ hslen]; exact hSk)
        simp only [decide_eq_true_eq] at hpk
        refine ⟨i, h_i, List.mem_cons_self _ _, hmi, hi, ?_⟩
        rw [hk₂] at hpk
        omega


theorem stackInv_all (fileId : String) (declMap : List (ℕ × EmbeddedType))
    (hs : List Heading) :
    ∀ i, i ≤ hs.length →
      StackInv (buildObjectsGo fileId declMap hs [(fileId, 0)] []) hs fileId i
        (stackUsedAfter fileId declMap (hs.take i) ([(fileId, 0)], [])).1 := by
  intro i
  induction i with
  | zero =>
    intro _
    refine ⟨[], rfl, rfl, ?_, ?_, ?_, ?_⟩
    · intro s j hsj
      simp at hsj
    · intro s s' j j' _ hsj
      simp at hsj
    · intro s s' j j' h_j h_j' _ hsj
      simp at hsj
    · intro m h_m hm
      exact absurd hm (by omega)
  | succ i ih =>
    intro hsi
    have hi' : i < hs.length := by omega
    obtain ⟨h_i, hhi⟩ : ∃ h_i, hs.get? i = some h_i := ⟨_, List.get?_eq_get hi'⟩
    obtain ⟨obj_i, hobj, hid, hlv, hls, hpar⟩ :=
      buildObjectsGo_get?_shape fileId declMap hs [(fileId, 0)] [] i h_i hhi
    have hstep := stackInv_step _ hs fileId i _ h_i obj_i (ih (by omega)) hhi hobj
    have htake : hs.take (i + 1) = hs.take i ++ [h_i] := by
      rw [List.take_succ]
      congr 1
      rw [← List.get?_eq_getElem?, hhi]
      rfl
    rw [htake, stackUsedAfter_append, stackUsedAfter, stackUsedAfter]
    rw [← hid]
    exact hstep

theorem parent_from_inv (objs : List ParsedObject) (hs : List Heading)
    (fileId : String) (i : ℕ) (S : List (String × ℕ)) (h_i : Heading)
    (hinv : StackInv objs hs fileId i S)
    (hi : hs.get? i = some h_i) :
    (((popStack S h_i.level).headD (fileId, 0)).1 = fileId ∧
      ∀ m h_m, m < i → hs.get? m = some h_m → h_i.level ≤ h_m.level) ∨
    (∃ j h_j pobj, j < i ∧ hs.get? j = some h_j ∧ objs.get? j = some pobj ∧
      ((popStack S h_i.level).headD (fileId, 0)).1 = pobj.id ∧
      h_j.level < h_i.level ∧
      ∀ m h_m, j < m → m < i → hs.get? m = some h_m → h_i.level ≤ h_m.level) := by
  obtain ⟨idxs, hlen, hroot, h3, h4, h5, h6⟩ := hinv
  have hS : S = S.take idxs.length ++ [(fileId, 0)] :=
    eq_take_append_last S idxs.length (fileId, 0) hlen hroot
  have hentlen : (S.take idxs.length).length = idxs.length := by
    rw [List.length_take, hlen]
    omega
  obtain ⟨dcnt, hdw, hdle, hdropped, hsurv⟩ :=
    dropWhile_drop_spec (fun e => decide (h_i.level ≤ e.2)) (S.take idxs.length)
  have hpop : popStack S h_i.level = (S.take idxs.length).drop dcnt ++ [(fileId, 0)] := by
    conv_lhs => rw [hS]
    rw [popStack_append_root, hdw]
  rw [hentlen] at hdle
  have hentget : ∀ s, s < idxs.length → (S.take idxs.length).get? s = S.get? s :=
    fun s hs₂ => List.get?_take hs₂
  -- a dropped position bounds the current level from below
  have hdropLevel : ∀ s m h_m, s < dcnt → idxs.get? s = some m →
      hs.get? m = some h_m → h_i.level ≤ h_m.level := by
    intro s m h_m hsd hsm hhm
    obtain ⟨-, obj, h_m₂, -, hhm₂, hSm⟩ := h3 s m hsm
    have hm₂ : h_m₂ = h_m := by
      rw [hhm₂] at hhm
      exact Option.some.inj hhm
    have hslen : s < idxs.length := (List.get?_eq_some.mp hsm).1
    have hpm := hdropped s (obj.id, h_m₂.level) hsd
      (by rw [hentget _ hslen]; exact hSm)
    simp only [decide_eq_true_eq] at hpm
    rw [← hm₂]
    exact hpm
  -- any earlier heading with a dominator position < dcnt is level-bounded
  have hbound : ∀ m h_m, m < i → hs.get? m = some h_m →
      (∀ s, dcnt ≤ s → idxs.get? s = some m → False) →
      (∀ s k h_k, dcnt ≤ s → idxs.get? s = some k → hs.get? k = some h_k →
        h_k.level ≤ h_m.level → m < k → False) →
      h_i.level ≤ h_m.level := by
    intro m h_m hmi hhm hnot₁ hnot₂
    by_cases hmem : m ∈ idxs
    · obtain ⟨s, hsm⟩ := List.mem_iff_get?.mp hmem
      rcases Nat.lt_or_ge s dcnt with hsd | hsd
      · exact hdropLevel s m h_m hsd hsm hhm
      · exact absurd (hnot₁ s hsd hsm) id
    · obtain ⟨k, h_k, hkmem, hmk, hhk, hlev⟩ := h6 m h_m hmi hhm hmem
      obtain ⟨s, hsk⟩ := List.mem_iff_get?.mp hkmem
      rcases Nat.lt_or_ge s dcnt with hsd | hsd
      · exact le_trans (hdropLevel s k h_k hsd hsk hhk) hlev
      · exact absurd (hnot₂ s k h_k hsd hsk hhk hlev hmk) id
  rcases Nat.lt_or_ge dcnt idxs.length with hdlt | hdge
  · -- a survivor exists: its topmost entry is the parent
    right
    obtain ⟨j₀, hj₀⟩ : ∃ j₀, idxs.get? dcnt = some j₀ :=
      ⟨_, List.get?_eq_get hdlt⟩
    obtain ⟨hj₀i, obj₀, h_j₀, hobj₀, hhj₀, hS₀⟩ := h3 dcnt j₀ hj₀
    have hhead : ((S.take idxs.length).drop dcnt).get? 0 = some (obj₀.id, h_j₀.level) := by
      rw [List.get?_drop, Nat.add_zero, hentget _ hdlt]
      exact hS₀
    have hheadD : (popStack S h_i.level).headD (fileId, 0) = (obj₀.id, h_j₀.level) := by
      rw [hpop]
      cases hd : (S.take idxs.length).drop dcnt with
      | nil => rw [hd] at hhead; exact absurd hhead (by simp)
      | cons a t =>
        rw [hd] at hhead
        rw [List.get?_cons_zero] at hhead
        rw [List.cons_append, List.headD_cons]
        exact Option.some.inj hhead
    have hsurvLevel : h_j₀.level < h_i.level := by
      have := hsurv (obj₀.id, h_j₀.level) (by rw [hdw]; exact hhead)
      simpa using this
    refine ⟨j₀, h_j₀, obj₀, hj₀i, hhj₀, hobj₀, by rw [hheadD], hsurvLevel, ?_⟩
    intro m h_m hjm hmi hhm
    apply hbound m h_m hmi hhm
    · intro s hsd hsm
      rcases Nat.lt_or_ge dcnt s with hlt | hge
      · have := h4 dcnt s j₀ m hlt hj₀ hsm
        omega
      · have hseq : s = dcnt := by omega
        rw [hseq] at hsm
        rw [hsm] at hj₀
        have := Option.some.inj hj₀
        omega
    · intro s k h_k hsd hsk hhk hlevk hmk
      rcases Nat.lt_or_ge dcnt s with hlt | hge
      · have := h4 dcnt s j₀ k hlt hj₀ hsk
        omega
      · have hseq : s = dcnt := by omega
        rw [hseq] at hsk
        rw [hsk] at hj₀
        have := Option.some.inj hj₀
        omega
  · -- everything popped: the parent is the root
    left
    have hdrop : (S.take idxs.length).drop dcnt = [] := by
      apply List.eq_nil_of_length_eq_zero
      rw [List.length_drop, hentlen]
      omega
    constructor
    · rw [hpop, hdrop]
      rfl
    · intro m h_m hmi hhm
      apply hbound m h_m hmi hhm
      · intro s hsd hsm
        have := (List.get?_eq_some.mp hsm).1
        omega
      · intro s k h_k hsd hsk hhk hlevk hmk
        have := (List.get?_eq_some.mp hsk).1
        omega


/-- C2: for every heading-derived object (index ≥ 1 of the object list), its
parent identifier is the identifier of the most recent earlier heading-derived
object whose heading level is strictly smaller, falling back to the root
(file) object's identifier when no earlier object has a strictly smaller
level; hence every non-root object has exactly one parent and the objects
form a forest rooted at the file object. -/
theorem C2_parent (content relativePath : String) (fm : Option Frontmatter)
    (declMap : List (ℕ × EmbeddedType)) (d : ParsedDocument)
    (hfm : parse_frontmatter content = .ok fm)
    (hmap : buildTypeDeclMap (rustLines (documentBody content fm))
      (contentStartLine fm) = .ok declMap)
    (hok : parse_document content relativePath = .ok d) :
    ∀ i obj, d.objects.get? (i + 1) = some obj →
      ∃ l, obj.heading_level = some l ∧
      ((obj.parent_id = some (stripDotMd relativePath) ∧
        ∀ m pobj l', m < i → d.objects.get? (m + 1) = some pobj →
          pobj.heading_level = some l' → l ≤ l') ∨
       (∃ j pobj l', j < i ∧ d.objects.get? (j + 1) = some pobj ∧
         pobj.heading_level = some l' ∧ l' < l ∧
         obj.parent_id = some pobj.id ∧
         ∀ m mobj l'', j < m → m < i → d.objects.get? (m + 1) = some mobj →
           mobj.heading_level = some l'' → l ≤ l'')) := by
  obtain ⟨-, hobjs, -, -⟩ := parse_document_ok_parts hfm hmap hok
  have hDm : ∀ m, d.objects.get? (m + 1) =
      ((buildObjectsGo (stripDotMd relativePath) declMap
        (extract_headings (documentBody content fm) (contentStartLine fm))
        [(stripDotMd relativePath, 0)] []).get? m).map
        (fun y => { y with line_end := computeEndAt ((objectsOf (stripDotMd relativePath) fm (documentBody content fm) (contentStartLine fm) declMap).map (·.line_start)) (m + 1) }) := by
    intro m
    rw [hobjs, compute_line_ends_get?]
    rfl
  have hlen : (buildObjectsGo (stripDotMd relativePath) declMap
      (extract_headings (documentBody content fm) (contentStartLine fm))
      [(stripDotMd relativePath, 0)] []).length
      = (extract_headings (documentBody content fm) (contentStartLine fm)).length := by
    have := congrArg List.length (buildObjectsGo_map_line_start (stripDotMd relativePath)
      declMap (extract_headings (documentBody content fm) (contentStartLine fm))
      [(stripDotMd relativePath, 0)] [])
    simpa using this
  have hlvl : ∀ m ppre h_m, (buildObjectsGo (stripDotMd relativePath) declMap
      (extract_headings (documentBody content fm) (contentStartLine fm))
      [(stripDotMd relativePath, 0)] []).get? m = some ppre →
      (extract_headings (documentBody content fm) (contentStartLine fm)).get? m
        = some h_m →
      ppre.heading_level = some h_m.level := by
    intro m ppre h_m hg hh
    obtain ⟨o, ho, -, holv, -, -⟩ := buildObjectsGo_get?_shape (stripDotMd relativePath)
      declMap (extract_headings (documentBody content fm) (contentStartLine fm))
      [(stripDotMd relativePath, 0)] [] m h_m hh
    rw [hg] at ho
    rw [Option.some.inj ho]
    exact holv
  intro i obj hio
  rw [hDm i] at hio
  cases hGOi : (buildObjectsGo (stripDotMd relativePath) declMap
      (extract_headings (documentBody content fm) (contentStartLine fm))
      [(stripDotMd relativePath, 0)] []).get? i with
  | none => rw [hGOi] at hio; exact absurd hio (by simp)
  | some opre =>
    rw [hGOi] at hio
    simp only [Option.map_some', Option.some.injEq] at hio
    have hi_lt : i < (extract_headings (documentBody content fm)
        (contentStartLine fm)).length := by
      have := (List.get?_eq_some.mp hGOi).1
      omega
    obtain ⟨h_i, hHSi⟩ : ∃ h_i, (extract_headings (documentBody content fm)
        (contentStartLine fm)).get? i = some h_i := ⟨_, List.get?_eq_get hi_lt⟩
    obtain ⟨o, ho, -, -, -, hopar⟩ := buildObjectsGo_get?_shape (stripDotMd relativePath)
      declMap (extract_headings (documentBody content fm) (contentStartLine fm))
      [(stripDotMd relativePath, 0)] [] i h_i hHSi
    rw [hGOi] at ho
    rw [← Option.some.inj ho] at hopar
    have hinv := stackInv_all (stripDotMd relativePath) declMap
      (extract_headings (documentBody content fm) (contentStartLine fm)) i
      (le_of_lt hi_lt)
    have hdisj := parent_from_inv _ _ (stripDotMd relativePath) i _ h_i hinv hHSi
    have hobjlvl : obj.heading_level = some h_i.level := by
      have h₁ : opre.heading_level = some h_i.level := hlvl i opre h_i hGOi hHSi
      rw [← hio]
      exact h₁
    have hobjpar : obj.parent_id = opre.parent_id := by
      rw [← hio]
    refine ⟨h_i.level, hobjlvl, ?_⟩
    rcases hdisj with ⟨hhead, hall⟩ | ⟨j, h_j, pobjpre, hji, hhj, hgoj, hhead, hjlt, hmost⟩
    · left
      constructor
      · rw [hobjpar, hopar, hhead]
      · intro m pobj l' hm hpm hpl
        rw [hDm m] at hpm
        cases hq : (buildObjectsGo (stripDotMd relativePath) declMap
            (extract_headings (documentBody content fm) (contentStartLine fm))
            [(stripDotMd relativePath, 0)] []).get? m with
        | none => rw [hq] at hpm; exact absurd hpm (by simp)
        | some ppre =>
          rw [hq] at hpm
          simp only [Option.map_some', Option.some.injEq] at hpm
          obtain ⟨h_m, hHSm⟩ : ∃ h_m, (extract_headings (documentBody content fm)
              (contentStartLine fm)).get? m = some h_m :=
            ⟨_, List.get?_eq_get (by omega)⟩
          have hplv : ppre.heading_level = some h_m.level := hlvl m ppre h_m hq hHSm
          have hpl₂ : ppre.heading_level = some l' := by
            rw [← hpm] at hpl
            exact hpl
          have hmm : l' = h_m.level := by
            rw [hplv] at hpl₂
            exact (Option.some.inj hpl₂).symm
          rw [hmm]
          exact hall m h_m hm hHSm
    · right
      have hdobj : d.objects.get? (j + 1) = some
          { pobjpre with line_end := computeEndAt ((objectsOf (stripDotMd relativePath) fm (documentBody content fm) (contentStartLine fm) declMap).map (·.line_start)) (j + 1) } := by
        rw [hDm j, hgoj]
        rfl
      refine ⟨j, _, h_j.level, hji, hdobj, ?_, ?_, ?_, ?_⟩
      · exact hlvl j pobjpre h_j hgoj hhj
      · exact hjlt
      · rw [hobjpar, hopar, hhead]
      · intro m mobj l'' hjm hm hpm hpl
        rw [hDm m] at hpm
        cases hq : (buildObjectsGo (stripDotMd relativePath) declMap
            (extract_headings (documentBody content fm) (contentStartLine fm))
            [(stripDotMd relativePath, 0)] []).get? m with
        | none => rw [hq] at hpm; exact absurd hpm (by simp)
        | some ppre =>
          rw [hq] at hpm
          simp only [Option.map_some', Option.some.injEq] at hpm
          obtain ⟨h_m, hHSm⟩ : ∃ h_m, (extract_headings (documentBody content fm)
              (contentStartLine fm)).get? m = some h_m :=
            ⟨_, List.get?_eq_get (by omega)⟩
          have hplv : ppre.heading_level = some h_m.level := hlvl m ppre h_m hq hHSm
          have hpl₂ : ppre.heading_level = some l'' := by
            rw [← hpm] at hpl
            exact hpl
          have hmm : l'' = h_m.level := by
            rw [hplv] at hpl₂
            exact (Option.some.inj hpl₂).symm
          rw [hmm]
          exact hmost m h_m hjm hm hHSm


/-- C2 (witness): applying the parent theorem to
`"# A\n## B\n### C\n## D\n# E"` at path `w.md`: every heading-derived object
of the parsed document has as its parent the most recent earlier object of
strictly smaller heading level, or the root when none exists. -/
theorem C2_witness :
    ∃ d, parse_document "# A\n## B\n### C\n## D\n# E" "w.md" = .ok d ∧
      (∀ i obj, d.objects.get? (i + 1) = some obj →
        ∃ l, obj.heading_level = some l ∧
        ((obj.parent_id = some (stripDotMd "w.md") ∧
          ∀ m pobj l', m < i → d.objects.get? (m + 1) = some pobj →
            pobj.heading_level = some l' → l ≤ l') ∨
         (∃ j pobj l', j < i ∧ d.objects.get? (j + 1) = some pobj ∧
           pobj.heading_level = some l' ∧ l' < l ∧
           obj.parent_id = some pobj.id ∧
           ∀ m mobj l'', j < m → m < i → d.objects.get? (m + 1) = some mobj →
             mobj.heading_level = some l'' → l ≤ l''))) :=
  ⟨_, rfl, C2_parent "# A\n## B\n### C\n## D\n# E" "w.md" none [] _ rfl rfl rfl⟩

end Raven
